import Mathlib

/-!
# Verification of the `prefix_tree` binary trie (src/tree.go, src/node.go, src/types.go)

Shallow embedding of the generic Go implementation:

* A Go `*Node[T]` (a possibly `nil` pointer to a node with `left`, `right`,
  `terminal`, `value` fields) is the inductive `NTree T`, whose `nil`
  constructor is the nil pointer.  The Go `value T` field is only readable
  after `SaveAndMarkTerminal` stored something, so it is modelled as
  `Option T` (`none` = the Go zero value, never observed through the API).
* `Tree[T]` (tree.go:17) keeps the root node and the `numNodes` counter.
  The lock callbacks (`rlockFn`, ...) are omitted: they have no effect on
  the tree state (tree.go only calls them around the bodies).
* The bit-level descent of tree.go (`match := msbByteVal; match >>= 1; ...`,
  tree.go:134-188, 287-337) walks the bits of `key`/`mask` MSB-first within
  each byte, for as long as the current mask bit is 1, and stops at the end
  of the byte slices.  That exact sequence of steered key bits is computed
  here once as `pathOf key mask` (take key bits while mask bits are 1);
  the descent loops then become structural recursion over that bit list.
* Mutation (`node.right = next`, `SaveAndMarkTerminal`, pruning in Delete)
  becomes functional rebuilding of the tree along the traversed path.
-/

set_option linter.unusedVariables false
set_option maxRecDepth 8000

namespace PTree

/-- `OpResult` of types.go:8. -/
inductive OpResult where
  | Error | Ok | Dup | Match | PartialMatch | NoMatch
deriving DecidableEq, Repr

/-- `MatchType` of types.go:19. -/
inductive MatchType where
  | Exact | Part
deriving DecidableEq, Repr

/-- The distinct error values a tree operation can return (types.go:42-48
plus the two `fmt.Errorf` errors of tree.go:131/284). -/
inductive Err where
  | invalidKeyMask | invalidKeyLength | insertFailed | keyNotFound | noWalkerFn
deriving DecidableEq, Repr

/-- A Go `*Node[T]` (node.go): either the nil pointer or a node with two
child pointers, the `terminal` flag and the stored value. -/
inductive NTree (T : Type) where
  | nil : NTree T
  | node (left right : NTree T) (terminal : Bool) (value : Option T) : NTree T
deriving DecidableEq

/-- `Tree[T]` of tree.go:17: the root node plus the `numNodes` counter. -/
structure Tree (T : Type) where
  root : NTree T
  numNodes : Nat
deriving DecidableEq

/-- `NewTree` (tree.go:35): fresh root node, zero count. -/
def newTree (T : Type) : Tree T := ⟨.node .nil .nil false none, 0⟩

/-- Whether a `*Node[T]` is the nil pointer. -/
def NTree.isNil {T : Type} : NTree T → Bool
  | .nil => true
  | .node _ _ _ _ => false

/-- `Node.IsLeaf` (node.go): no children. -/
def NTree.isLeaf {T : Type} : NTree T → Bool
  | .nil => true
  | .node l r _ _ => l.isNil && r.isNil

/-- `Node.IsTerminal` (node.go); the nil pointer is never terminal. -/
def NTree.terminalB {T : Type} : NTree T → Bool
  | .nil => false
  | .node _ _ t _ => t

/-- The stored `value` field. -/
def NTree.valueOf {T : Type} : NTree T → Option T
  | .nil => none
  | .node _ _ _ v => v

/-- The 8 bits of a byte, most significant first — the successive tests
`match == match & b` for `match = 0x80, 0x40, ..., 1` (tree.go:158-187). -/
def byteBits (b : Nat) : List Bool := (List.range 8).map (fun i => b.testBit (7 - i))

/-- All bits of a byte slice, MSB-first within each byte. -/
def bitsOf (bs : List Nat) : List Bool := bs.flatMap byteBits

/-- The bit path the descent loops follow: the key's bits, taken for as long
as the corresponding mask bit is 1 (the first mask bit equal to 0 terminates
every traversal loop in tree.go, and the loops also stop at the end of the
byte slices). -/
def pathOf (key mask : List Nat) : List Bool :=
  (((bitsOf key).zip (bitsOf mask)).takeWhile (fun p => p.2)).map (fun p => p.1)

/-- The node reached from `n` by following child pointers along `p`
(bit 1 → right child, bit 0 → left child); `.nil` if the path leaves
the tree. -/
def nodeAt {T : Type} : NTree T → List Bool → NTree T
  | n, [] => n
  | .nil, _ :: _ => .nil
  | .node _ r _ _, true :: bs => nodeAt r bs
  | .node l _ _ _, false :: bs => nodeAt l bs

/-- The chain of fresh nodes Insert's creation loop builds for the
remaining masked bits (tree.go:222-254): one node per remaining bit,
each the appropriate child of its predecessor, the last one marked
terminal with the value. -/
def buildChain {T : Type} (v : T) : List Bool → NTree T
  | [] => .node .nil .nil true (some v)
  | true :: bs => .node .nil (buildChain v bs) false none
  | false :: bs => .node (buildChain v bs) .nil false none

/-- The body of `Tree.Insert` after validation (tree.go:149-260): descend
along the path as far as children exist; if the whole path is consumed the
reached node is marked (`Dup` if already terminal, tree.go:199-213), else
the remaining bits are created as a fresh chain (tree.go:222-254).
The `NTree.nil` case is Go's defensive `ErrInsertFailed` branches
(tree.go:195-197, 218-220), unreachable from `Tree.insert` because the
descent starts at the (non-nil) root and only recurses into non-nil
children. -/
def insertGo {T : Type} (v : T) : NTree T → List Bool → NTree T × OpResult
  | .nil, _ => (.nil, .Error)
  | .node l r t w, [] =>
      if t then (.node l r t w, .Dup)
      else (.node l r true (some v), .Ok)
  | .node l .nil t w, true :: bs => (.node l (buildChain v bs) t w, .Ok)
  | .node l (.node rl rr rt rw) t w, true :: bs =>
      let p := insertGo v (.node rl rr rt rw) bs
      (.node l p.1 t w, p.2)
  | .node .nil r t w, false :: bs => (.node (buildChain v bs) r t w, .Ok)
  | .node (.node ll lr lt lw) r t w, false :: bs =>
      let p := insertGo v (.node ll lr lt lw) bs
      (.node p.1 r t w, p.2)

/-- `Tree.Insert` (tree.go:123-261): validate the key/mask lengths
(tree.go:125-131) and the first mask bit (tree.go:140), then run the
descent/creation body and bump `numNodes` on a successful insert
(tree.go:210, 257). All `Error` returns happen before any mutation. -/
def Tree.insert {T : Type} (t : Tree T) (key mask : List Nat) (v : T) :
    Tree T × OpResult × Option Err :=
  if key.length ≠ mask.length then (t, .Error, some .invalidKeyMask)
  else if key.length = 0 then (t, .Error, some .invalidKeyLength)
  else if (mask.headI.testBit 7) = false then (t, .Error, some .invalidKeyMask)
  else
    let p := insertGo v t.root (pathOf key mask)
    match p.2 with
    | .Ok => (⟨p.1, t.numNodes + 1⟩, .Ok, none)
    | .Dup => (⟨p.1, t.numNodes⟩, .Dup, none)
    | _ => (t, .Error, some .insertFailed)

/-- The traversal loop of `Tree.find` (tree.go:302-337): walk along the
path while the node pointer is non-nil; in `Part`ial mode stop at the
first terminal node seen at the top of the loop (tree.go:306-309).
Returns the final node pointer, the `ret` result and the number of
descent steps taken (the returned node's depth; Go's `t.IsRoot(node)`
test is depth-0). -/
def findLoop {T : Type} (mt : MatchType) : NTree T → List Bool → NTree T × OpResult × Nat
  | n, [] => (n, .Match, 0)
  | .nil, _ :: _ => (.nil, .Match, 0)
  | .node l r t w, true :: bs =>
      if mt = .Part ∧ t = true then (.node l r t w, .PartialMatch, 0)
      else
        let p := findLoop mt r bs
        (p.1, p.2.1, p.2.2 + 1)
  | .node l r t w, false :: bs =>
      if mt = .Part ∧ t = true then (.node l r t w, .PartialMatch, 0)
      else
        let p := findLoop mt l bs
        (p.1, p.2.1, p.2.2 + 1)

/-- `Tree.find` (tree.go:277-345): emptiness check first (tree.go:278),
then key-length and first-mask-bit validation (tree.go:283-295), then the
loop, then the final `node != nil && node.IsTerminal()` check
(tree.go:340-344). Also returns the found node's depth. -/
def Tree.find {T : Type} (t : Tree T) (key mask : List Nat) (mt : MatchType) :
    NTree T × Nat × OpResult × Option Err :=
  if t.numNodes = 0 then (.nil, 0, .NoMatch, some .keyNotFound)
  else if key.length = 0 then (.nil, 0, .Error, some .invalidKeyLength)
  else if (mask.headI.testBit 7) = false then (.nil, 0, .Error, some .invalidKeyMask)
  else
    let p := findLoop mt t.root (pathOf key mask)
    if p.1.terminalB then (p.1, p.2.2, p.2.1, none)
    else (.nil, p.2.2, .NoMatch, some .keyNotFound)

/-- `Tree.Search` (tree.go:438-475): length validation, `find`, the
per-match-type result validation (tree.go:456-466), the defensive
`nil == node || !node.IsTerminal() || t.IsRoot(node)` check
(tree.go:469-471, with `IsRoot` rendered as depth 0), then the value. -/
def Tree.search {T : Type} (t : Tree T) (key mask : List Nat) (mt : MatchType) :
    OpResult × Option T × Option Err :=
  if key.length ≠ mask.length then (.Error, none, some .invalidKeyMask)
  else
    match t.find key mask mt with
    | (n, d, r, e) =>
      match e with
      | some e' => (.Error, none, some e')
      | none =>
        if mt = .Exact ∧ r ≠ .Match then (.Error, none, none)
        else if mt = .Part ∧ r ≠ .Match ∧ r ≠ .PartialMatch then (.Error, none, none)
        else if n.terminalB = false ∨ d = 0 then (.Error, none, some .keyNotFound)
        else (r, n.valueOf, none)

/-- `Tree.SearchExact` (tree.go:489-491). -/
def Tree.searchExact {T : Type} (t : Tree T) (key mask : List Nat) :
    OpResult × Option T × Option Err :=
  t.search key mask .Exact

/-- `Tree.SearchPartial` (tree.go:505-507). -/
def Tree.searchPartial {T : Type} (t : Tree T) (key mask : List Nat) :
    OpResult × Option T × Option Err :=
  t.search key mask .Part

/-- The non-leaf branch of `Tree.Delete` (tree.go:385-394): clear the
`terminal` flag of the node at the end of the path (`UnmarkTerminal`
retains the value). Total: the identity off the tree. -/
def unmarkAt {T : Type} : NTree T → List Bool → NTree T
  | .nil, _ => .nil
  | .node l r _ w, [] => .node l r false w
  | .node l r t w, true :: bs => .node l (unmarkAt r bs) t w
  | .node l r t w, false :: bs => .node (unmarkAt l bs) r t w

/-- The leaf-pruning ascent of `Tree.Delete` (tree.go:398-416), rendered
structurally: the matched leaf (path exhausted) is removed (`.nil`), and on
the way back up each ancestor whose pruned child left it a childless
non-terminal node is removed in turn — exactly the Go loop's
`!node.IsLeaf() || node.IsTerminal()` stopping rule, checked after the
unlink. The `.nil, _ :: _` case is unreachable after a successful `find`. -/
def delAux {T : Type} : NTree T → List Bool → NTree T
  | _, [] => .nil
  | .nil, _ :: _ => .nil
  | .node l r t w, true :: bs =>
      let c := delAux r bs
      if c.isNil && l.isNil && !t then .nil else .node l c t w
  | .node l r t w, false :: bs =>
      let c := delAux l bs
      if c.isNil && r.isNil && !t then .nil else .node c r t w

/-- The top level of the pruning ascent: the Go loop's `t.IsRoot(node)`
stopping rule (tree.go:413) — the root itself is never removed, though its
child on the path may be unlinked. The `[]` case is unreachable: the
matched node is at depth ≥ 1. -/
def delRoot {T : Type} : NTree T → List Bool → NTree T
  | n, [] => n
  | .nil, _ :: _ => .nil
  | .node l r t w, true :: bs => .node l (delAux r bs) t w
  | .node l r t w, false :: bs => .node (delAux l bs) r t w

/-- `Tree.decrNumNodes` (tree.go:98-102): guarded decrement. -/
def decr (n : Nat) : Nat := if 0 < n then n - 1 else n

/-- `Tree.Delete` (tree.go:359-423): length validation, `find` in Exact
mode, the combined `nil != err || Match != result` check (tree.go:375),
the defensive terminal/root check (tree.go:380-382, `IsRoot` rendered as
depth 0), then either the unmark (non-leaf) or the pruning ascent (leaf),
and the guarded decrement. All `Error` returns happen before mutation. -/
def Tree.delete {T : Type} (t : Tree T) (key mask : List Nat) :
    Tree T × OpResult × Option T × Option Err :=
  if key.length ≠ mask.length then (t, .Error, none, some .invalidKeyMask)
  else
    match t.find key mask .Exact with
    | (n, d, r, e) =>
      if e ≠ none ∨ r ≠ .Match then (t, .Error, none, e)
      else if n.terminalB = false ∨ d = 0 then (t, .Error, none, some .keyNotFound)
      else if n.isLeaf = false then
        (⟨unmarkAt t.root (pathOf key mask), decr t.numNodes⟩, .Match, n.valueOf, none)
      else
        (⟨delRoot t.root (pathOf key mask), decr t.numNodes⟩, .Match, n.valueOf, none)

/-- The values `Tree.Walk` (tree.go:521-601) hands to the walker function,
in visit order. The source drives an explicit stack machine: descend to
the leftmost node (tree.go:548-557), pop and visit childless nodes
(tree.go:560-573), then unwind to the nearest ancestor with an unvisited
right child (tree.go:576-597), visiting each popped ancestor. Every
non-root node is therefore visited exactly once, after its left subtree
and then its right subtree — a left-first post-order traversal — and the
walker function is called on the value of each terminal node visited.
That machine is embedded literally as `mrun` below, and
`walkMachine_eq_walk` proves it makes exactly these calls. -/
def walkVals {T : Type} : NTree T → List T
  | .nil => []
  | .node l r t w => walkVals l ++ walkVals r ++ (if t then w.toList else [])

/-- Running the walker function down the visit-order value list with the
source's early exit (tree.go:569-572, 592-595): the first error stops the
walk. Returns the list of values the walker was actually invoked on,
paired with the returned error. -/
def runWalker {T E : Type} (f : T → Option E) : List T → List T × Option E
  | [] => ([], none)
  | v :: vs =>
      match f v with
      | some e => ([v], some e)
      | none => let p := runWalker f vs; (v :: p.1, p.2)

/-- `Tree.Walk` (tree.go:521-601): empty-tree early return (tree.go:526),
then the traversal with early exit on a walker error. (The `nil == walkerFn`
check of tree.go:522 cannot arise here: the callback is a total Lean
function.) -/
def Tree.walk {T E : Type} (t : Tree T) (f : T → Option E) : Option E :=
  if t.numNodes = 0 then none else (runWalker f (walkVals t.root)).2

/-- The values `Tree.Walk` actually invokes the walker function on (the
ghost call trace of `Tree.walk`). -/
def Tree.walkCalls {T E : Type} (t : Tree T) (f : T → Option E) : List T :=
  if t.numNodes = 0 then [] else (runWalker f (walkVals t.root)).1

/-- Number of nodes currently marked terminal below (and including) `n` —
the census `numNodes` is measured against (claim C6). -/
def countTerminals {T : Type} : NTree T → Nat
  | .nil => 0
  | .node l r t _ => (if t then 1 else 0) + countTerminals l + countTerminals r

/-- The multiset of values stored at terminal nodes. -/
def storedVals {T : Type} : NTree T → Multiset T
  | .nil => 0
  | .node l r t w => storedVals l + storedVals r + (if t then (w.toList : Multiset T) else 0)

/-- Every terminal node carries a value (`SaveAndMarkTerminal` always
stores one, node.go:123-126). -/
def goodVals {T : Type} : NTree T → Bool
  | .nil => true
  | .node l r t w => (!t || w.isSome) && goodVals l && goodVals r

/-- Invariants of every tree reachable through the public API: the counter
equals the terminal census, the root is never terminal (the first mask bit
of every accepted operation is 1, so marking happens at depth ≥ 1), the
root node exists, and terminal nodes carry values. -/
def WF {T : Type} (t : Tree T) : Prop :=
  t.numNodes = countTerminals t.root ∧ t.root.terminalB = false ∧
    t.root ≠ .nil ∧ goodVals t.root = true

instance {T : Type} [DecidableEq T] (t : Tree T) : Decidable (WF t) := by
  unfold WF; infer_instance

/-- One public mutating-or-reading operation, for stating state invariants
over arbitrary call sequences (claim C6). `Search` and `Walk` take and
return the tree unchanged: tree.go's Search/Walk only read the structure
(their stacks are local, tree.go:536, and the walker callback cannot reach
the tree). -/
inductive Op (T : Type) where
  | ins (key mask : List Nat) (v : T)
  | del (key mask : List Nat)
  | search (key mask : List Nat) (mt : MatchType)
  | walk

/-- The tree state after one operation. -/
def applyOp {T : Type} (t : Tree T) : Op T → Tree T
  | .ins key mask v => (t.insert key mask v).1
  | .del key mask => (t.delete key mask).1
  | .search _ _ _ => t
  | .walk => t

/-- The tree state after a sequence of operations. -/
def applyOps {T : Type} (t : Tree T) (ops : List (Op T)) : Tree T :=
  ops.foldl applyOp t

/-! ## Basic facts about paths and traversal -/

theorem byteBits_eq (k : Nat) :
    byteBits k = [k.testBit 7, k.testBit 6, k.testBit 5, k.testBit 4,
      k.testBit 3, k.testBit 2, k.testBit 1, k.testBit 0] := rfl

/-- A non-empty key whose mask's first bit is set yields a non-empty bit
path: the first descent step is always taken. -/
theorem pathOf_ne_nil {key mask : List Nat} (h2 : key ≠ [])
    (h1 : key.length = mask.length) (h3 : mask.headI.testBit 7 = true) :
    pathOf key mask ≠ [] := by
  obtain ⟨k, ks, rfl⟩ := List.exists_cons_of_ne_nil h2
  cases mask with
  | nil => simp at h1
  | cons m ms =>
    simp only [List.headI] at h3
    simp [pathOf, bitsOf, List.flatMap_cons, byteBits_eq, h3]

theorem nodeAt_nil {T : Type} (p : List Bool) : nodeAt (.nil : NTree T) p = .nil := by
  cases p <;> rfl

/-- In `Exact` mode the find loop just follows the child pointers: it ends
at the node the path leads to, and the result stays `Match`. -/
theorem findLoop_exact {T : Type} (p : List Bool) (n : NTree T) :
    (findLoop .Exact n p).1 = nodeAt n p ∧ (findLoop .Exact n p).2.1 = .Match := by
  induction p generalizing n with
  | nil => cases n <;> simp [findLoop, nodeAt]
  | cons b bs ih =>
    cases n with
    | nil => simp [findLoop, nodeAt]
    | node l r t w =>
      cases b with
      | true => simpa [findLoop, nodeAt] using ih r
      | false => simpa [findLoop, nodeAt] using ih l

/-- When the path stays inside the tree, the Exact find loop takes exactly
`p.length` descent steps. -/
theorem findLoop_exact_depth {T : Type} (p : List Bool) (n : NTree T)
    (h : nodeAt n p ≠ .nil) : (findLoop .Exact n p).2.2 = p.length := by
  induction p generalizing n with
  | nil => cases n <;> simp [findLoop]
  | cons b bs ih =>
    cases n with
    | nil => simp [nodeAt_nil] at h
    | node l r t w =>
      cases b with
      | true =>
        simp only [nodeAt] at h
        simpa [findLoop] using ih r h
      | false =>
        simp only [nodeAt] at h
        simpa [findLoop] using ih l h

/-! ## Facts about `insertGo` -/

theorem nodeAt_buildChain {T : Type} (v : T) (bs : List Bool) :
    (nodeAt (buildChain v bs) bs).terminalB = true ∧
      (nodeAt (buildChain v bs) bs).valueOf = some v := by
  induction bs with
  | nil => simp [buildChain, nodeAt, NTree.terminalB, NTree.valueOf]
  | cons b bs ih => cases b <;> simpa [buildChain, nodeAt] using ih

theorem buildChain_ne_nil {T : Type} (v : T) (bs : List Bool) :
    buildChain v bs ≠ .nil := by
  cases bs with
  | nil => simp [buildChain]
  | cons b bs => cases b <;> simp [buildChain]

/-- Away from the defensive nil case, an insert body returns `Ok` or `Dup`. -/
theorem insertGo_res {T : Type} (v : T) (p : List Bool) (n : NTree T)
    (hn : n ≠ .nil) : (insertGo v n p).2 = .Ok ∨ (insertGo v n p).2 = .Dup := by
  induction p generalizing n with
  | nil =>
    cases n with
    | nil => exact absurd rfl hn
    | node l r t w => by_cases h : t = true <;> simp [insertGo, h]
  | cons b bs ih =>
    cases n with
    | nil => exact absurd rfl hn
    | node l r t w =>
      cases b with
      | false => cases l with
        | nil => simp [insertGo]
        | node ll lr lt lw => simpa [insertGo] using ih _ (by simp)
      | true => cases r with
        | nil => simp [insertGo]
        | node rl rr rt rw => simpa [insertGo] using ih _ (by simp)

/-- Inserting over an already-terminal stored node is a `Dup` and touches
nothing (tree.go:199-204: the Dup return precedes all mutation). -/
theorem insertGo_dup {T : Type} (v : T) (p : List Bool) (n : NTree T)
    (h : (nodeAt n p).terminalB = true) : insertGo v n p = (n, .Dup) := by
  induction p generalizing n with
  | nil =>
    cases n with
    | nil => simp [nodeAt, NTree.terminalB] at h
    | node l r t w =>
      simp only [nodeAt, NTree.terminalB] at h
      simp [insertGo, h]
  | cons b bs ih =>
    cases n with
    | nil => simp [nodeAt_nil, NTree.terminalB] at h
    | node l r t w =>
      cases b with
      | false =>
        simp only [nodeAt] at h
        cases l with
        | nil => rw [nodeAt_nil] at h; simp [NTree.terminalB] at h
        | node ll lr lt lw => simp [insertGo, ih _ h]
      | true =>
        simp only [nodeAt] at h
        cases r with
        | nil => rw [nodeAt_nil] at h; simp [NTree.terminalB] at h
        | node rl rr rt rw => simp [insertGo, ih _ h]

/-- A `Dup` result leaves the subtree unchanged. -/
theorem insertGo_dup_eq {T : Type} (v : T) (p : List Bool) (n : NTree T)
    (h : (insertGo v n p).2 = .Dup) : (insertGo v n p).1 = n := by
  induction p generalizing n with
  | nil =>
    cases n with
    | nil => simp [insertGo] at h
    | node l r t w =>
      by_cases ht : t = true
      · simp [insertGo, ht]
      · simp [insertGo, ht] at h
  | cons b bs ih =>
    cases n with
    | nil => simp [insertGo] at h
    | node l r t w =>
      cases b with
      | false => cases l with
        | nil => simp [insertGo] at h
        | node ll lr lt lw =>
          simp only [insertGo] at h ⊢
          rw [ih _ h]
      | true => cases r with
        | nil => simp [insertGo] at h
        | node rl rr rt rw =>
          simp only [insertGo] at h ⊢
          rw [ih _ h]

/-- After a successful insert, the node at the end of the path is terminal
and stores the inserted value. -/
theorem insertGo_ok_nodeAt {T : Type} (v : T) (p : List Bool) (n n' : NTree T)
    (h : insertGo v n p = (n', .Ok)) :
    (nodeAt n' p).terminalB = true ∧ (nodeAt n' p).valueOf = some v := by
  induction p generalizing n n' with
  | nil =>
    cases n with
    | nil => simp [insertGo] at h
    | node l r t w =>
      by_cases ht : t = true
      · simp [insertGo, ht] at h
      · simp only [insertGo, ht, if_false, Bool.false_eq_true, Prod.mk.injEq] at h
        obtain ⟨rfl, -⟩ := h
        simp [nodeAt, NTree.terminalB, NTree.valueOf]
  | cons b bs ih =>
    cases n with
    | nil => simp [insertGo] at h
    | node l r t w =>
      cases b with
      | false =>
        cases l with
        | nil =>
          simp only [insertGo, Prod.mk.injEq] at h
          obtain ⟨rfl, -⟩ := h
          simpa [nodeAt] using nodeAt_buildChain v bs
        | node ll lr lt lw =>
          simp only [insertGo, Prod.mk.injEq] at h
          obtain ⟨rfl, h2⟩ := h
          simpa [nodeAt] using ih _ _ (Prod.ext rfl h2)
      | true =>
        cases r with
        | nil =>
          simp only [insertGo, Prod.mk.injEq] at h
          obtain ⟨rfl, -⟩ := h
          simpa [nodeAt] using nodeAt_buildChain v bs
        | node rl rr rt rw =>
          simp only [insertGo, Prod.mk.injEq] at h
          obtain ⟨rfl, h2⟩ := h
          simpa [nodeAt] using ih _ _ (Prod.ext rfl h2)

theorem countTerminals_buildChain {T : Type} (v : T) (bs : List Bool) :
    countTerminals (buildChain v bs) = 1 := by
  induction bs with
  | nil => simp [buildChain, countTerminals]
  | cons b bs ih => cases b <;> simp [buildChain, countTerminals, ih]

theorem goodVals_buildChain {T : Type} (v : T) (bs : List Bool) :
    goodVals (buildChain v bs) = true := by
  induction bs with
  | nil => simp [buildChain, goodVals]
  | cons b bs ih => cases b <;> simp [buildChain, goodVals, ih]

/-- A successful insert adds exactly one terminal node (the marked one;
fresh chain nodes are non-terminal, tree.go:225/254). -/
theorem count_insertGo_ok {T : Type} (v : T) (p : List Bool) (n : NTree T)
    (h : (insertGo v n p).2 = .Ok) :
    countTerminals (insertGo v n p).1 = countTerminals n + 1 := by
  induction p generalizing n with
  | nil =>
    cases n with
    | nil => simp [insertGo] at h
    | node l r t w =>
      by_cases ht : t = true
      · simp [insertGo, ht] at h
      · simp only [Bool.not_eq_true] at ht
        subst ht
        simp only [insertGo, Bool.false_eq_true, if_false, countTerminals,
          eq_self_iff_true, if_true]
        omega
  | cons b bs ih =>
    cases n with
    | nil => simp [insertGo] at h
    | node l r t w =>
      cases b with
      | false =>
        cases l with
        | nil =>
          simp only [insertGo, countTerminals, countTerminals_buildChain]
          omega
        | node ll lr lt lw =>
          simp only [insertGo] at h ⊢
          simp only [countTerminals, ih _ h]
          omega
      | true =>
        cases r with
        | nil =>
          simp only [insertGo, countTerminals, countTerminals_buildChain]
        | node rl rr rt rw =>
          simp only [insertGo] at h ⊢
          simp only [countTerminals, ih _ h]
          omega

/-- Insert only ever stores `some` values. -/
theorem goodVals_insertGo {T : Type} (v : T) (p : List Bool) (n : NTree T)
    (h : goodVals n = true) : goodVals (insertGo v n p).1 = true := by
  induction p generalizing n with
  | nil =>
    cases n with
    | nil => simpa [insertGo] using h
    | node l r t w =>
      simp only [goodVals, Bool.and_eq_true] at h
      obtain ⟨⟨h1, h2⟩, h3⟩ := h
      by_cases ht : t = true
      · subst ht
        simp only [Bool.not_true, Bool.false_or] at h1
        simp [insertGo, goodVals, h1, h2, h3]
      · simp only [Bool.not_eq_true] at ht
        subst ht
        simp [insertGo, goodVals, h2, h3]
  | cons b bs ih =>
    cases n with
    | nil => simpa [insertGo] using h
    | node l r t w =>
      simp only [goodVals, Bool.and_eq_true] at h
      cases b with
      | false =>
        cases l with
        | nil => simp [insertGo, goodVals, goodVals_buildChain, h.1.1, h.2]
        | node ll lr lt lw =>
          simp only [insertGo, goodVals, Bool.and_eq_true]
          exact ⟨⟨h.1.1, ih _ h.1.2⟩, h.2⟩
      | true =>
        cases r with
        | nil => simp [insertGo, goodVals, goodVals_buildChain, h.1.1, h.1.2]
        | node rl rr rt rw =>
          simp only [insertGo, goodVals, Bool.and_eq_true]
          exact ⟨⟨h.1.1, h.1.2⟩, ih _ h.2⟩

/-- An insert below a real node keeps its terminal flag and keeps it a
real node: insert never touches the root's own fields when the path is
non-empty. -/
theorem insertGo_cons_top {T : Type} (v : T) (l r : NTree T) (t : Bool)
    (w : Option T) (b : Bool) (bs : List Bool) :
    ((insertGo v (.node l r t w) (b :: bs)).1).terminalB = t ∧
      (insertGo v (.node l r t w) (b :: bs)).1 ≠ .nil := by
  cases b with
  | false => cases l <;> simp [insertGo, NTree.terminalB]
  | true => cases r <;> simp [insertGo, NTree.terminalB]

/-! ## Facts about deletion -/

/-- A stored (terminal) node on the path makes the census positive. -/
theorem count_pos_of_terminal {T : Type} (p : List Bool) (n : NTree T)
    (h : (nodeAt n p).terminalB = true) : 1 ≤ countTerminals n := by
  induction p generalizing n with
  | nil =>
    cases n with
    | nil => simp [nodeAt, NTree.terminalB] at h
    | node l r t w =>
      simp only [nodeAt, NTree.terminalB] at h
      simp only [countTerminals, h, if_true]
      omega
  | cons b bs ih =>
    cases n with
    | nil => simp [nodeAt_nil, NTree.terminalB] at h
    | node l r t w =>
      cases b with
      | false =>
        simp only [nodeAt] at h
        have := ih _ h
        simp only [countTerminals]
        omega
      | true =>
        simp only [nodeAt] at h
        have := ih _ h
        simp only [countTerminals]
        omega

/-- Unmarking the matched node (the non-leaf delete branch) removes
exactly one terminal from the census. -/
theorem count_unmarkAt {T : Type} (p : List Bool) (n : NTree T)
    (h : (nodeAt n p).terminalB = true) :
    countTerminals n = countTerminals (unmarkAt n p) + 1 := by
  induction p generalizing n with
  | nil =>
    cases n with
    | nil => simp [nodeAt, NTree.terminalB] at h
    | node l r t w =>
      simp only [nodeAt, NTree.terminalB] at h
      simp only [unmarkAt, countTerminals, h, if_true, Bool.false_eq_true, if_false]
      omega
  | cons b bs ih =>
    cases n with
    | nil => simp [nodeAt_nil, NTree.terminalB] at h
    | node l r t w =>
      cases b with
      | false =>
        simp only [nodeAt] at h
        simp only [unmarkAt, countTerminals, ih _ h]
        omega
      | true =>
        simp only [nodeAt] at h
        simp only [unmarkAt, countTerminals, ih _ h]
        omega

/-- After unmarking, the node at the end of the path is no longer
terminal. -/
theorem nodeAt_unmarkAt {T : Type} (p : List Bool) (n : NTree T) :
    (nodeAt (unmarkAt n p) p).terminalB = false := by
  induction p generalizing n with
  | nil => cases n <;> simp [unmarkAt, nodeAt, NTree.terminalB]
  | cons b bs ih =>
    cases n with
    | nil => simp [unmarkAt, nodeAt_nil, NTree.terminalB]
    | node l r t w => cases b <;> simpa [unmarkAt, nodeAt] using ih _

theorem goodVals_unmarkAt {T : Type} (p : List Bool) (n : NTree T)
    (h : goodVals n = true) : goodVals (unmarkAt n p) = true := by
  induction p generalizing n with
  | nil =>
    cases n with
    | nil => simpa [unmarkAt] using h
    | node l r t w =>
      simp only [goodVals, Bool.and_eq_true] at h
      simp [unmarkAt, goodVals, h.1.2, h.2]
  | cons b bs ih =>
    cases n with
    | nil => simpa [unmarkAt] using h
    | node l r t w =>
      simp only [goodVals, Bool.and_eq_true] at h
      cases b with
      | false =>
        simp only [unmarkAt, goodVals, Bool.and_eq_true]
        exact ⟨⟨h.1.1, ih _ h.1.2⟩, h.2⟩
      | true =>
        simp only [unmarkAt, goodVals, Bool.and_eq_true]
        exact ⟨⟨h.1.1, h.1.2⟩, ih _ h.2⟩

/-- The pruning ascent removes the node at the end of the path from the
tree. -/
theorem nodeAt_delAux {T : Type} (p : List Bool) (n : NTree T) :
    nodeAt (delAux n p) p = .nil := by
  induction p generalizing n with
  | nil => cases n <;> simp [delAux, nodeAt]
  | cons b bs ih =>
    cases n with
    | nil => simp [delAux, nodeAt_nil]
    | node l r t w =>
      cases b with
      | false =>
        simp only [delAux]
        by_cases hc : ((delAux l bs).isNil && r.isNil && !t) = true
        · simp [hc, nodeAt_nil]
        · simpa [hc, nodeAt] using ih l
      | true =>
        simp only [delAux]
        by_cases hc : ((delAux r bs).isNil && l.isNil && !t) = true
        · simp [hc, nodeAt_nil]
        · simpa [hc, nodeAt] using ih r

/-- Pruning a matched terminal leaf removes exactly one terminal from the
census: the pruned ancestors are non-terminal by the ascent's stopping
rule. -/
theorem count_delAux {T : Type} (p : List Bool) (n : NTree T)
    (h : (nodeAt n p).terminalB = true) (hl : (nodeAt n p).isLeaf = true) :
    countTerminals n = countTerminals (delAux n p) + 1 := by
  induction p generalizing n with
  | nil =>
    cases n with
    | nil => simp [nodeAt, NTree.terminalB] at h
    | node l r t w =>
      simp only [nodeAt, NTree.terminalB] at h
      simp only [nodeAt, NTree.isLeaf, Bool.and_eq_true] at hl
      cases l with
      | node _ _ _ _ => simp [NTree.isNil] at hl
      | nil =>
        cases r with
        | node _ _ _ _ => simp [NTree.isNil] at hl
        | nil => simp [delAux, countTerminals, h]
  | cons b bs ih =>
    cases n with
    | nil => simp [nodeAt_nil, NTree.terminalB] at h
    | node l r t w =>
      cases b with
      | false =>
        simp only [nodeAt] at h hl
        have hrec := ih _ h hl
        have hpos := count_pos_of_terminal bs l h
        simp only [delAux]
        by_cases hc : ((delAux l bs).isNil && r.isNil && !t) = true
        · rw [if_pos hc]
          simp only [Bool.and_eq_true, Bool.not_eq_true'] at hc
          obtain ⟨⟨h1, h2⟩, h3⟩ := hc
          have hz : countTerminals (delAux l bs) = 0 := by
            cases hd : delAux l bs with
            | nil => simp [countTerminals]
            | node _ _ _ _ => rw [hd] at h1; simp [NTree.isNil] at h1
          have hr : r = .nil := by
            cases r with
            | nil => rfl
            | node _ _ _ _ => simp [NTree.isNil] at h2
          subst hr h3
          have hone : countTerminals l = 1 := by omega
          simp [countTerminals, hone]
        · rw [if_neg hc]
          simp only [countTerminals]
          omega
      | true =>
        simp only [nodeAt] at h hl
        have hrec := ih _ h hl
        have hpos := count_pos_of_terminal bs r h
        simp only [delAux]
        by_cases hc : ((delAux r bs).isNil && l.isNil && !t) = true
        · rw [if_pos hc]
          simp only [Bool.and_eq_true, Bool.not_eq_true'] at hc
          obtain ⟨⟨h1, h2⟩, h3⟩ := hc
          have hz : countTerminals (delAux r bs) = 0 := by
            cases hd : delAux r bs with
            | nil => simp [countTerminals]
            | node _ _ _ _ => rw [hd] at h1; simp [NTree.isNil] at h1
          have hll : l = .nil := by
            cases l with
            | nil => rfl
            | node _ _ _ _ => simp [NTree.isNil] at h2
          subst hll h3
          have hone : countTerminals r = 1 := by omega
          simp [countTerminals, hone]
        · rw [if_neg hc]
          simp only [countTerminals]
          omega

theorem goodVals_delAux {T : Type} (p : List Bool) (n : NTree T)
    (h : goodVals n = true) : goodVals (delAux n p) = true := by
  induction p generalizing n with
  | nil => simp [delAux, goodVals]
  | cons b bs ih =>
    cases n with
    | nil => simp [delAux, goodVals]
    | node l r t w =>
      simp only [goodVals, Bool.and_eq_true] at h
      cases b with
      | false =>
        simp only [delAux]
        by_cases hc : ((delAux l bs).isNil && r.isNil && !t) = true
        · simp [hc, goodVals]
        · rw [if_neg hc]
          simp only [goodVals, Bool.and_eq_true]
          exact ⟨⟨h.1.1, ih _ h.1.2⟩, h.2⟩
      | true =>
        simp only [delAux]
        by_cases hc : ((delAux r bs).isNil && l.isNil && !t) = true
        · simp [hc, goodVals]
        · rw [if_neg hc]
          simp only [goodVals, Bool.and_eq_true]
          exact ⟨⟨h.1.1, h.1.2⟩, ih _ h.2⟩

/-- Same facts for the top level of the ascent (the root is retained). -/
theorem nodeAt_delRoot {T : Type} (b : Bool) (bs : List Bool) (n : NTree T) :
    nodeAt (delRoot n (b :: bs)) (b :: bs) = .nil := by
  cases n with
  | nil => simp [delRoot, nodeAt_nil]
  | node l r t w => cases b <;> simp [delRoot, nodeAt, nodeAt_delAux]

theorem count_delRoot {T : Type} (b : Bool) (bs : List Bool) (n : NTree T)
    (h : (nodeAt n (b :: bs)).terminalB = true)
    (hl : (nodeAt n (b :: bs)).isLeaf = true) :
    countTerminals n = countTerminals (delRoot n (b :: bs)) + 1 := by
  cases n with
  | nil => simp [nodeAt_nil, NTree.terminalB] at h
  | node l r t w =>
    cases b with
    | false =>
      simp only [nodeAt] at h hl
      have := count_delAux bs l h hl
      simp only [delRoot, countTerminals]
      omega
    | true =>
      simp only [nodeAt] at h hl
      have := count_delAux bs r h hl
      simp only [delRoot, countTerminals]
      omega

theorem goodVals_delRoot {T : Type} (p : List Bool) (n : NTree T)
    (h : goodVals n = true) : goodVals (delRoot n p) = true := by
  cases p with
  | nil => simpa [delRoot] using h
  | cons b bs =>
    cases n with
    | nil => simpa [delRoot] using h
    | node l r t w =>
      simp only [goodVals, Bool.and_eq_true] at h
      cases b with
      | false =>
        simp only [delRoot, goodVals, Bool.and_eq_true]
        exact ⟨⟨h.1.1, goodVals_delAux bs l h.1.2⟩, h.2⟩
      | true =>
        simp only [delRoot, goodVals, Bool.and_eq_true]
        exact ⟨⟨h.1.1, h.1.2⟩, goodVals_delAux bs r h.2⟩

/-- `delRoot` keeps the root node and its terminal flag (the ascent stops
at the root, tree.go:413). -/
theorem delRoot_top {T : Type} (l r : NTree T) (t : Bool) (w : Option T)
    (b : Bool) (bs : List Bool) :
    ((delRoot (.node l r t w) (b :: bs))).terminalB = t ∧
      delRoot (.node l r t w) (b :: bs) ≠ .nil := by
  cases b <;> simp [delRoot, NTree.terminalB]

theorem unmarkAt_top {T : Type} (l r : NTree T) (t : Bool) (w : Option T)
    (b : Bool) (bs : List Bool) :
    ((unmarkAt (.node l r t w) (b :: bs))).terminalB = t ∧
      unmarkAt (.node l r t w) (b :: bs) ≠ .nil := by
  cases b <;> simp [unmarkAt, NTree.terminalB]

theorem terminalB_ne_nil {T : Type} {n : NTree T} (h : n.terminalB = true) :
    n ≠ .nil := by
  cases n with
  | nil => simp [NTree.terminalB] at h
  | node _ _ _ _ => simp

/-! ## Inversion and evaluation facts for the public operations -/

/-- What a successful (`Ok`) insert reveals: all validations passed, the
body ran on the path, and the counter went up by one. -/
theorem insert_ok_inv {T : Type} (t : Tree T) (key mask : List Nat) (v : T)
    (t₁ : Tree T) (h : t.insert key mask v = (t₁, .Ok, none)) :
    key.length = mask.length ∧ key ≠ [] ∧ mask.headI.testBit 7 = true ∧
      (insertGo v t.root (pathOf key mask)).1 = t₁.root ∧
      (insertGo v t.root (pathOf key mask)).2 = .Ok ∧
      t₁.numNodes = t.numNodes + 1 := by
  unfold Tree.insert at h
  split_ifs at h with h1 h2 h3
  · simp at h
  · simp at h
  · simp at h
  · rcases hgo : (insertGo v t.root (pathOf key mask)).2 with _ | _ | _ | _ | _ | _ <;>
      simp only [hgo] at h <;> simp at h
    exact ⟨by omega, fun hk => by rw [hk] at h2; simp at h2, by simpa using h3,
      congrArg Tree.root h, rfl, (congrArg Tree.numNodes h).symm⟩

/-- A `Dup` insert reveals the validations passed and the tree is returned
with the body's (unchanged) root and the same counter. -/
theorem insert_dup_inv {T : Type} (t : Tree T) (key mask : List Nat) (v : T)
    (t₁ : Tree T) (e : Option Err) (h : t.insert key mask v = (t₁, .Dup, e)) :
    (insertGo v t.root (pathOf key mask)).2 = .Dup ∧ t₁ = t ∧ e = none := by
  unfold Tree.insert at h
  split_ifs at h with h1 h2 h3
  · simp at h
  · simp at h
  · simp at h
  · rcases hgo : (insertGo v t.root (pathOf key mask)).2 with _ | _ | _ | _ | _ | _ <;>
      simp only [hgo] at h <;> simp at h
    refine ⟨rfl, ?_, h.2.symm⟩
    have hid := insertGo_dup_eq v (pathOf key mask) t.root hgo
    rw [← h.1, hid]

/-- An `Error` from Insert leaves the tree untouched: every `Error` return
in tree.go:123-261 happens before any mutation. -/
theorem insert_error_eq {T : Type} (t : Tree T) (key mask : List Nat) (v : T)
    (h : (t.insert key mask v).2.1 = .Error) : (t.insert key mask v).1 = t := by
  revert h
  simp only [Tree.insert]
  split_ifs <;> intro h
  · rfl
  · rfl
  · rfl
  · rcases hgo : (insertGo v t.root (pathOf key mask)).2 with _ | _ | _ | _ | _ | _ <;>
      simp only [hgo] at h ⊢ <;> first | rfl | simp at h

/-- An `Error` from Delete leaves the tree untouched: every `Error` return
in tree.go:359-423 happens before any mutation. -/
theorem delete_error_eq {T : Type} (t : Tree T) (key mask : List Nat)
    (h : (t.delete key mask).2.1 = .Error) : (t.delete key mask).1 = t := by
  revert h
  unfold Tree.delete
  rcases hfind : t.find key mask .Exact with ⟨n, d, r, e⟩
  by_cases h1 : key.length ≠ mask.length
  · rw [if_pos h1]; intro; rfl
  · rw [if_neg h1]
    simp only [hfind]
    by_cases h2 : e ≠ none ∨ r ≠ .Match
    · rw [if_pos h2]; intro; rfl
    · rw [if_neg h2]
      by_cases h3 : n.terminalB = false ∨ d = 0
      · rw [if_pos h3]; intro; rfl
      · rw [if_neg h3]
        by_cases h4 : n.isLeaf = false
        · rw [if_pos h4]; intro h; simp at h
        · rw [if_neg h4]; intro h; simp at h

/-- Evaluation of `SearchExact` on a stored key: if the node the path
leads to is terminal (and the inputs pass validation on a non-empty
tree), the search returns `Match` and that node's value. -/
theorem searchExact_found {T : Type} (t : Tree T) (key mask : List Nat)
    (m : NTree T) (hlen : key.length = mask.length) (hne : key ≠ [])
    (hbit : mask.headI.testBit 7 = true) (hnum : t.numNodes ≠ 0)
    (hm : nodeAt t.root (pathOf key mask) = m) (hterm : m.terminalB = true) :
    t.searchExact key mask = (.Match, m.valueOf, none) := by
  have hloop := findLoop_exact (pathOf key mask) t.root
  have hnnil : nodeAt t.root (pathOf key mask) ≠ .nil := hm ▸ terminalB_ne_nil hterm
  have hdepth := findLoop_exact_depth (pathOf key mask) t.root hnnil
  have hplen : pathOf key mask ≠ [] := pathOf_ne_nil hne hlen hbit
  unfold Tree.searchExact Tree.search Tree.find
  rw [if_neg (by simp [hlen]), if_neg hnum, if_neg (by simp [hne]),
    if_neg (by simp [hbit])]
  simp only [hloop.1, hloop.2, hm, hterm, hdepth, if_true]
  have : pathOf key mask ≠ [] := hplen
  rw [if_neg (by simp), if_neg (by simp), if_neg (by simp [hterm, List.length_eq_zero, hplen])]

/-- What a `find` that reports no error reveals: the tree is non-empty,
the inputs passed validation, and the returned node is the terminal node
the loop stopped at. -/
theorem find_some_inv {T : Type} (t : Tree T) (key mask : List Nat)
    (mt : MatchType) (n : NTree T) (d : Nat) (r : OpResult)
    (h : t.find key mask mt = (n, d, r, none)) :
    t.numNodes ≠ 0 ∧ key ≠ [] ∧ mask.headI.testBit 7 = true ∧
      n.terminalB = true ∧ findLoop mt t.root (pathOf key mask) = (n, r, d) := by
  simp only [Tree.find] at h
  split_ifs at h with h1 h2 h3 h4
  · simp at h
  · simp at h
  · simp at h
  · simp only [Prod.mk.injEq] at h
    obtain ⟨hn, hd, hr, -⟩ := h
    exact ⟨h1, fun hk => h2 (by simp [hk]), by simpa using h3, hn ▸ h4,
      Prod.ext hn (Prod.ext hr hd)⟩
  · simp at h

/-- Evaluation of `find` in Exact mode on a stored key. -/
theorem find_exact_eval {T : Type} (t : Tree T) (key mask : List Nat)
    (m : NTree T) (hne : key ≠ []) (hbit : mask.headI.testBit 7 = true)
    (hnum : t.numNodes ≠ 0) (hm : nodeAt t.root (pathOf key mask) = m)
    (hterm : m.terminalB = true) :
    t.find key mask .Exact = (m, (pathOf key mask).length, .Match, none) := by
  have hloop := findLoop_exact (pathOf key mask) t.root
  have hnnil : nodeAt t.root (pathOf key mask) ≠ .nil := hm ▸ terminalB_ne_nil hterm
  have hdepth := findLoop_exact_depth (pathOf key mask) t.root hnnil
  unfold Tree.find
  rw [if_neg hnum, if_neg (by simp [hne]), if_neg (by simp [hbit])]
  simp only [hloop.1, hloop.2, hm, hterm, hdepth, if_true]

/-- Evaluation of `Delete` on a stored key: `Match` with the stored value,
the guarded decrement, and either the unmark (non-leaf) or the pruning
ascent (leaf). -/
theorem delete_found {T : Type} (t : Tree T) (key mask : List Nat)
    (m : NTree T) (hlen : key.length = mask.length) (hne : key ≠ [])
    (hbit : mask.headI.testBit 7 = true) (hnum : t.numNodes ≠ 0)
    (hm : nodeAt t.root (pathOf key mask) = m) (hterm : m.terminalB = true) :
    t.delete key mask =
      (⟨if m.isLeaf = false then unmarkAt t.root (pathOf key mask)
          else delRoot t.root (pathOf key mask), decr t.numNodes⟩,
        .Match, m.valueOf, none) := by
  have hfind := find_exact_eval t key mask m hne hbit hnum hm hterm
  have hplen : pathOf key mask ≠ [] := pathOf_ne_nil hne hlen hbit
  unfold Tree.delete
  rw [if_neg (by simp [hlen])]
  simp only [hfind]
  rw [if_neg (by simp), if_neg (by simp [hterm, List.length_eq_zero, hplen])]
  split_ifs <;> rfl

/-- Evaluation of `SearchExact` on a missing key: if the node the path
leads to is absent or non-terminal, the search reports key-not-found
(whatever the tree's emptiness state). -/
theorem searchExact_missing {T : Type} (t : Tree T) (key mask : List Nat)
    (hlen : key.length = mask.length) (hne : key ≠ [])
    (hbit : mask.headI.testBit 7 = true)
    (hterm : (nodeAt t.root (pathOf key mask)).terminalB = false) :
    t.searchExact key mask = (.Error, none, some .keyNotFound) := by
  have hloop := findLoop_exact (pathOf key mask) t.root
  unfold Tree.searchExact Tree.search Tree.find
  rw [if_neg (by simp [hlen])]
  by_cases hnum : t.numNodes = 0
  · simp [hnum]
  · rw [if_neg hnum, if_neg (by simp [hne]), if_neg (by simp [hbit])]
    simp only [hloop.1, hterm]
    simp

/-! ## Preservation of the reachability invariants -/

theorem WF_newTree (T : Type) : WF (newTree T) := by
  refine ⟨?_, rfl, by simp [newTree], rfl⟩
  simp [newTree, countTerminals]

/-- Insert preserves the invariants; in particular a successful insert
keeps `numNodes` equal to the terminal census. -/
theorem WF_insert {T : Type} (t : Tree T) (key mask : List Nat) (v : T)
    (h : WF t) : WF (t.insert key mask v).1 := by
  obtain ⟨hcount, hflag, hnil, hgood⟩ := h
  unfold Tree.insert
  by_cases h1 : key.length ≠ mask.length
  · simpa [h1] using ⟨hcount, hflag, hnil, hgood⟩
  · rw [if_neg h1]
    by_cases h2 : key.length = 0
    · simpa [h2] using ⟨hcount, hflag, hnil, hgood⟩
    · rw [if_neg h2]
      by_cases h3 : mask.headI.testBit 7 = false
      · simpa [h3] using ⟨hcount, hflag, hnil, hgood⟩
      · rw [if_neg h3]
        have hplen : pathOf key mask ≠ [] :=
          pathOf_ne_nil (fun hk => h2 (by simp [hk])) (by omega) (by simpa using h3)
        obtain ⟨b, bs, hp⟩ := List.exists_cons_of_ne_nil hplen
        rcases hgo : (insertGo v t.root (pathOf key mask)).2 with _ | _ | _ | _ | _ | _ <;>
          simp only [hgo]
        · exact ⟨hcount, hflag, hnil, hgood⟩
        · -- Ok: one more terminal, flag and values preserved
          refine ⟨?_, ?_, ?_, ?_⟩
          · show t.numNodes + 1 = countTerminals (insertGo v t.root (pathOf key mask)).1
            rw [count_insertGo_ok v (pathOf key mask) t.root hgo]
            omega
          · show ((insertGo v t.root (pathOf key mask)).1).terminalB = false
            cases hroot : t.root with
            | nil => exact absurd hroot hnil
            | node l r rt rw =>
              have hflag' : rt = false := by simpa [hroot, NTree.terminalB] using hflag
              subst hflag'
              rw [hp]
              exact (insertGo_cons_top v l r false rw b bs).1
          · show (insertGo v t.root (pathOf key mask)).1 ≠ .nil
            cases hroot : t.root with
            | nil => exact absurd hroot hnil
            | node l r rt rw =>
              rw [hp]
              exact (insertGo_cons_top v l r rt rw b bs).2
          · exact goodVals_insertGo v (pathOf key mask) t.root hgood
        · -- Dup: unchanged
          have := insertGo_dup_eq v (pathOf key mask) t.root hgo
          exact ⟨by simpa [this] using hcount, by simpa [this] using hflag,
            by simpa [this] using hnil, by simpa [this] using hgood⟩
        · exact ⟨hcount, hflag, hnil, hgood⟩
        · exact ⟨hcount, hflag, hnil, hgood⟩
        · exact ⟨hcount, hflag, hnil, hgood⟩

/-- Delete preserves the invariants; in particular a successful delete
keeps `numNodes` equal to the terminal census (the guarded decrement
matches the one terminal removed). -/
theorem WF_delete {T : Type} (t : Tree T) (key mask : List Nat)
    (h : WF t) : WF (t.delete key mask).1 := by
  obtain ⟨hcount, hflag, hnil, hgood⟩ := h
  unfold Tree.delete
  rcases hfind : t.find key mask .Exact with ⟨n, d, r, e⟩
  by_cases h1 : key.length ≠ mask.length
  · simpa [h1] using ⟨hcount, hflag, hnil, hgood⟩
  · rw [if_neg h1]
    simp only [hfind]
    by_cases h2 : e ≠ none ∨ r ≠ .Match
    · simpa [h2] using ⟨hcount, hflag, hnil, hgood⟩
    · rw [if_neg h2]
      by_cases h3 : n.terminalB = false ∨ d = 0
      · simpa [h3] using ⟨hcount, hflag, hnil, hgood⟩
      · rw [if_neg h3]
        push_neg at h2 h3
        obtain ⟨he, hr⟩ := h2
        obtain ⟨hterm, hd⟩ := h3
        subst he hr
        obtain ⟨-, hne, hbit, hterm', hloop⟩ :=
          find_some_inv t key mask .Exact n d .Match hfind
        have hnode : nodeAt t.root (pathOf key mask) = n :=
          (findLoop_exact (pathOf key mask) t.root).1.symm.trans
            (congrArg Prod.fst hloop)
        have hlen : key.length = mask.length := by omega
        have hplen : pathOf key mask ≠ [] := pathOf_ne_nil hne hlen hbit
        obtain ⟨b, bs, hp⟩ := List.exists_cons_of_ne_nil hplen
        have hpos : 1 ≤ countTerminals t.root :=
          count_pos_of_terminal (pathOf key mask) t.root (hnode ▸ hterm')
        have hnum1 : 0 < t.numNodes := by omega
        have hterm2 : (nodeAt t.root (pathOf key mask)).terminalB = true := by
          rw [hnode]; exact hterm'
        split_ifs with hleaf
        · -- non-leaf: unmark only
          refine ⟨?_, ?_, ?_, ?_⟩
          · show decr t.numNodes = countTerminals (unmarkAt t.root (pathOf key mask))
            have hcnt := count_unmarkAt (pathOf key mask) t.root hterm2
            simp only [decr, if_pos hnum1]
            omega
          · show (unmarkAt t.root (pathOf key mask)).terminalB = false
            cases hroot : t.root with
            | nil => exact absurd hroot hnil
            | node l rr rt rw =>
              have hflag' : rt = false := by simpa [hroot, NTree.terminalB] using hflag
              subst hflag'
              rw [hp]
              exact (unmarkAt_top l rr false rw b bs).1
          · show unmarkAt t.root (pathOf key mask) ≠ .nil
            cases hroot : t.root with
            | nil => exact absurd hroot hnil
            | node l rr rt rw =>
              rw [hp]
              exact (unmarkAt_top l rr rt rw b bs).2
          · exact goodVals_unmarkAt (pathOf key mask) t.root hgood
        · -- leaf: pruning ascent
          have hlf : n.isLeaf = true := by simpa using hleaf
          have hlf2 : (nodeAt t.root (b :: bs)).isLeaf = true := by
            rw [← hp, hnode]; exact hlf
          have hterm3 : (nodeAt t.root (b :: bs)).terminalB = true := by
            rw [← hp]; exact hterm2
          refine ⟨?_, ?_, ?_, ?_⟩
          · show decr t.numNodes = countTerminals (delRoot t.root (pathOf key mask))
            have hcnt := count_delRoot b bs t.root hterm3 hlf2
            rw [hp]
            simp only [decr, if_pos hnum1]
            omega
          · show (delRoot t.root (pathOf key mask)).terminalB = false
            cases hroot : t.root with
            | nil => exact absurd hroot hnil
            | node l rr rt rw =>
              have hflag' : rt = false := by simpa [hroot, NTree.terminalB] using hflag
              subst hflag'
              rw [hp]
              exact (delRoot_top l rr false rw b bs).1
          · show delRoot t.root (pathOf key mask) ≠ .nil
            cases hroot : t.root with
            | nil => exact absurd hroot hnil
            | node l rr rt rw =>
              rw [hp]
              exact (delRoot_top l rr rt rw b bs).2
          · exact goodVals_delRoot (pathOf key mask) t.root hgood

theorem WF_applyOp {T : Type} (t : Tree T) (op : Op T) (h : WF t) :
    WF (applyOp t op) := by
  cases op with
  | ins key mask v => exact WF_insert t key mask v h
  | del key mask => exact WF_delete t key mask h
  | search key mask mt => exact h
  | walk => exact h

theorem WF_applyOps {T : Type} (ops : List (Op T)) (t : Tree T) (h : WF t) :
    WF (applyOps t ops) := by
  induction ops generalizing t with
  | nil => exact h
  | cons op ops ih => exact ih _ (WF_applyOp t op h)

/-! ## The Partial-match semantics (claim C2) -/

/-- Written from the spec (§4.4): the first terminal node met while walking
the key's bit path down from the root — the least specific stored covering
prefix — together with its depth. `none` when the walk leaves the tree or
exhausts the path without meeting a terminal node. Used to compare the
source's `find` in Partial mode against the spec's description. -/
def firstTerm {T : Type} : NTree T → List Bool → Option (NTree T × Nat)
  | .nil, _ => none
  | .node l r t w, p =>
      if t then some (.node l r t w, 0)
      else
        match p with
        | [] => none
        | true :: bs => (firstTerm r bs).map (fun q => (q.1, q.2 + 1))
        | false :: bs => (firstTerm l bs).map (fun q => (q.1, q.2 + 1))

/-- The Partial-mode find loop stops exactly at the first terminal node on
the path, at its depth. -/
theorem findLoop_part_some {T : Type} (p : List Bool) (n : NTree T)
    (m : NTree T) (d : Nat) (h : firstTerm n p = some (m, d)) :
    (findLoop .Part n p).1 = m ∧ (findLoop .Part n p).2.2 = d := by
  induction p generalizing n m d with
  | nil =>
    cases n with
    | nil => simp [firstTerm] at h
    | node l r t w =>
      by_cases ht : t = true
      · subst ht
        simp only [firstTerm, if_true, Option.some.injEq, Prod.mk.injEq] at h
        obtain ⟨rfl, rfl⟩ := h
        simp [findLoop]
      · simp only [Bool.not_eq_true] at ht
        subst ht
        simp [firstTerm] at h
  | cons b bs ih =>
    cases n with
    | nil => simp [firstTerm] at h
    | node l r t w =>
      by_cases ht : t = true
      · subst ht
        simp only [firstTerm, if_true, Option.some.injEq, Prod.mk.injEq] at h
        obtain ⟨rfl, rfl⟩ := h
        cases b <;> simp [findLoop]
      · simp only [Bool.not_eq_true] at ht
        subst ht
        simp only [firstTerm, Bool.false_eq_true, if_false] at h
        cases b with
        | true =>
          rw [Option.map_eq_some'] at h
          obtain ⟨⟨m', d'⟩, hq, he⟩ := h
          simp only [Prod.mk.injEq] at he
          have hrec := ih r m' d' hq
          simp only [findLoop]
          rw [if_neg (by simp)]
          exact ⟨hrec.1.trans he.1, by rw [hrec.2]; exact he.2⟩
        | false =>
          rw [Option.map_eq_some'] at h
          obtain ⟨⟨m', d'⟩, hq, he⟩ := h
          simp only [Prod.mk.injEq] at he
          have hrec := ih l m' d' hq
          simp only [findLoop]
          rw [if_neg (by simp)]
          exact ⟨hrec.1.trans he.1, by rw [hrec.2]; exact he.2⟩

/-- When there is no terminal node on the path, the Partial-mode find loop
ends on a non-terminal (or nil) node, so `find` reports a miss. -/
theorem findLoop_part_none {T : Type} (p : List Bool) (n : NTree T)
    (h : firstTerm n p = none) : (findLoop .Part n p).1.terminalB = false := by
  induction p generalizing n with
  | nil =>
    cases n with
    | nil => simp [findLoop, NTree.terminalB]
    | node l r t w =>
      by_cases ht : t = true
      · subst ht
        simp [firstTerm] at h
      · simp only [Bool.not_eq_true] at ht
        subst ht
        simp [findLoop, NTree.terminalB]
  | cons b bs ih =>
    cases n with
    | nil => simp [findLoop, NTree.terminalB]
    | node l r t w =>
      by_cases ht : t = true
      · subst ht
        simp [firstTerm] at h
      · simp only [Bool.not_eq_true] at ht
        subst ht
        simp only [firstTerm, Bool.false_eq_true, if_false] at h
        cases b with
        | true =>
          rw [Option.map_eq_none'] at h
          simp only [findLoop]
          rw [if_neg (by simp)]
          exact ih r h
        | false =>
          rw [Option.map_eq_none'] at h
          simp only [findLoop]
          rw [if_neg (by simp)]
          exact ih l h

/-- `firstTerm` finds a terminal node at the least depth along the path:
it sits on the path, is terminal, and no strictly shallower node on the
path is terminal. -/
theorem firstTerm_minimal {T : Type} (p : List Bool) (n : NTree T)
    (m : NTree T) (d : Nat) (h : firstTerm n p = some (m, d)) :
    d ≤ p.length ∧ nodeAt n (p.take d) = m ∧ m.terminalB = true ∧
      ∀ d' < d, (nodeAt n (p.take d')).terminalB = false := by
  induction p generalizing n m d with
  | nil =>
    cases n with
    | nil => simp [firstTerm] at h
    | node l r t w =>
      by_cases ht : t = true
      · subst ht
        simp only [firstTerm, if_true, Option.some.injEq, Prod.mk.injEq] at h
        obtain ⟨rfl, rfl⟩ := h
        exact ⟨Nat.le_refl 0, rfl, by simp [NTree.terminalB], by omega⟩
      · simp only [Bool.not_eq_true] at ht
        subst ht
        simp [firstTerm] at h
  | cons b bs ih =>
    cases n with
    | nil => simp [firstTerm] at h
    | node l r t w =>
      by_cases ht : t = true
      · subst ht
        simp only [firstTerm, if_true, Option.some.injEq, Prod.mk.injEq] at h
        obtain ⟨rfl, rfl⟩ := h
        exact ⟨by simp, rfl, by simp [NTree.terminalB], by omega⟩
      · simp only [Bool.not_eq_true] at ht
        subst ht
        simp only [firstTerm, Bool.false_eq_true, if_false] at h
        cases b with
        | true =>
          rw [Option.map_eq_some'] at h
          obtain ⟨⟨m', d'⟩, hq, he⟩ := h
          simp only [Prod.mk.injEq] at he
          obtain ⟨hm', hd⟩ := he
          obtain ⟨hle, hnode, hterm, hmin⟩ := ih r m' d' hq
          subst hd hm'
          refine ⟨by simpa using hle, by simpa [nodeAt] using hnode, hterm, ?_⟩
          intro d'' hd''
          cases d'' with
          | zero => simp [nodeAt, NTree.terminalB]
          | succ k => simpa [nodeAt] using hmin k (by omega)
        | false =>
          rw [Option.map_eq_some'] at h
          obtain ⟨⟨m', d'⟩, hq, he⟩ := h
          simp only [Prod.mk.injEq] at he
          obtain ⟨hm', hd⟩ := he
          obtain ⟨hle, hnode, hterm, hmin⟩ := ih l m' d' hq
          subst hd hm'
          refine ⟨by simpa using hle, by simpa [nodeAt] using hnode, hterm, ?_⟩
          intro d'' hd''
          cases d'' with
          | zero => simp [nodeAt, NTree.terminalB]
          | succ k => simpa [nodeAt] using hmin k (by omega)

/-- What a Search that returns a value reveals: the inputs validated, the
underlying `find` succeeded on a terminal non-root node carrying that
value, with the same result code. -/
theorem search_some_inv {T : Type} (t : Tree T) (key mask : List Nat)
    (mt : MatchType) (res : OpResult) (v : T)
    (h : t.search key mask mt = (res, some v, none)) :
    key.length = mask.length ∧
      ∃ n d, t.find key mask mt = (n, d, res, none) ∧ n.terminalB = true ∧
        d ≠ 0 ∧ n.valueOf = some v := by
  unfold Tree.search at h
  by_cases h1 : key.length ≠ mask.length
  · rw [if_pos h1] at h; simp at h
  · rw [if_neg h1] at h
    rcases hfind : t.find key mask mt with ⟨n, d, r, e⟩
    simp only [hfind] at h
    cases e with
    | some e' => simp at h
    | none =>
      split_ifs at h with h2 h3 h4
      · simp at h
      · simp at h
      · simp at h
      · simp only [Prod.mk.injEq] at h
        obtain ⟨hres, hval, -⟩ := h
        push_neg at h4
        have hterm : n.terminalB = true := by simpa using h4.1
        subst hres
        exact ⟨by omega, n, d, rfl, hterm, h4.2, hval⟩

/-! ## Facts about `Walk` -/

/-- The visit-order value list carries exactly the stored values (as a
multiset: each stored value once per terminal node holding it). -/
theorem walkVals_coe {T : Type} (n : NTree T) :
    (↑(walkVals n) : Multiset T) = storedVals n := by
  induction n with
  | nil => simp [walkVals, storedVals]
  | node l r t w ihl ihr =>
    simp only [walkVals, storedVals, ← ihl, ← ihr]
    by_cases ht : t = true
    · subst ht
      simp only [if_true]
      simp [← Multiset.coe_add, List.append_assoc, add_assoc]
    · simp only [Bool.not_eq_true] at ht
      subst ht
      simp

/-- One walker call per terminal node: the visit list's length is the
terminal census (terminal nodes always hold a value). -/
theorem walkVals_length {T : Type} (n : NTree T) (h : goodVals n = true) :
    (walkVals n).length = countTerminals n := by
  induction n with
  | nil => simp [walkVals, countTerminals]
  | node l r t w ihl ihr =>
    simp only [goodVals, Bool.and_eq_true] at h
    obtain ⟨⟨h1, h2⟩, h3⟩ := h
    simp only [walkVals, countTerminals, List.length_append, ihl h2, ihr h3]
    by_cases ht : t = true
    · subst ht
      simp only [Bool.not_true, Bool.false_or] at h1
      cases w with
      | none => simp at h1
      | some v => simp [Option.toList]; omega
    · simp only [Bool.not_eq_true] at ht
      subst ht
      simp

/-- A never-failing walker is invoked on the whole list and the walk
returns no error. -/
theorem runWalker_none {T E : Type} (f : T → Option E) (vals : List T)
    (h : ∀ v ∈ vals, f v = none) : runWalker f vals = (vals, none) := by
  induction vals with
  | nil => rfl
  | cons v vs ih =>
    have hv : f v = none := h v (by simp)
    simp only [runWalker, hv]
    rw [ih (fun x hx => h x (by simp [hx]))]

/-- A walker failing first on its `(k+1)`-st input is invoked exactly on
the first `k` values plus the failing one, and the walk returns that
error. -/
theorem runWalker_some {T E : Type} (f : T → Option E) (xs : List T)
    (y : T) (ys : List T) (e : E) (hx : ∀ x ∈ xs, f x = none)
    (hy : f y = some e) :
    runWalker f (xs ++ y :: ys) = (xs ++ [y], some e) := by
  induction xs with
  | nil => simp [runWalker, hy]
  | cons x xs ih =>
    have hv : f x = none := hx x (by simp)
    simp only [List.cons_append, runWalker, hv, List.append_eq]
    rw [ih (fun z hz => hx z (by simp [hz]))]

/-! ## The Walk stack machine, literally

`Tree.walk` above renders tree.go's Walk as a left-first post-order
traversal. To justify that rendering, this section embeds the source's
explicit stack machine (tree.go:536-598) directly — the stack holds node
identities, here root-relative paths, which in the strict ownership tree
stand in for the Go node pointers (`parent.right != node` becomes path
disequality) — and proves that, given enough fuel, the machine makes
exactly the calls of `runWalker` over the post-order value list. -/

/-- A node's child pointer selected by a bit. -/
def NTree.childB {T : Type} (b : Bool) : NTree T → NTree T
  | .nil => .nil
  | .node l r _ _ => if b then r else l

/-- Which loop of tree.go's Walk the machine is in: the outer descent
loop (tree.go:542-557), or the inner unwind loop (tree.go:576-597) with
the path of the node just finished. -/
inductive WPhase where
  | desc : WPhase
  | unw : List Bool → WPhase

/-- Visiting a popped node (tree.go:568-573, 591-596): if it is terminal
the walker function is called on its value; the call list records the
value passed. -/
def visitNode {T E : Type} (f : T → Option E) (n : NTree T) : List T × Option E :=
  if n.terminalB then
    match n.valueOf with
    | some v => ([v], f v)
    | none => ([], none)
  else ([], none)

/-- Prefix the calls of a completed continuation. -/
def andThen {T E : Type} (x : Option (List T × Option E)) (cs : List T) :
    Option (List T × Option E) :=
  match x with
  | none => none
  | some (cs2, r2) => some (cs ++ cs2, r2)

/-- Sequence a visit before a continuation: a walker error returns
immediately (tree.go:570-572, 593-595), otherwise the continuation runs. -/
def visitThen {T E : Type} (vr : List T × Option E)
    (k : Option (List T × Option E)) : Option (List T × Option E) :=
  match vr with
  | (cs, some e) => some (cs, some e)
  | (cs, none) => andThen k cs

/-- Sequential composition of two completed walk segments with the
early-exit-on-error rule. -/
def wcomb {T E : Type} : List T × Option E → List T × Option E → List T × Option E
  | (c1, some e), _ => (c1, some e)
  | (c1, none), (c2, r) => (c1 ++ c2, r)

/-- The Walk stack machine of tree.go:542-598, fueled (each unfolding is
one loop iteration; `none` = out of fuel). The stack holds paths, top
first. Outer loop: push an existing left child, else an existing right
child, else pop — the root is ignored (tree.go:563-565), any other node
is visited — and unwind. Inner loop: at the stack top `parent`, push its
right child when that child exists and is not the node just finished
(tree.go:582-585); otherwise pop `parent`, visiting it unless it is the
root, and continue unwinding; an empty stack ends the walk. -/
def mrun {T E : Type} (root : NTree T) (f : T → Option E) :
    Nat → WPhase → List (List Bool) → Option (List T × Option E)
  | 0, _, _ => none
  | _ + 1, .desc, [] => some ([], none)
  | fu + 1, .desc, p :: st =>
      if ((nodeAt root p).childB false).isNil = false then
        mrun root f fu .desc ((p ++ [false]) :: p :: st)
      else if ((nodeAt root p).childB true).isNil = false then
        mrun root f fu .desc ((p ++ [true]) :: p :: st)
      else if p = [] then mrun root f fu .desc st
      else visitThen (visitNode f (nodeAt root p)) (mrun root f fu (.unw p) st)
  | _ + 1, .unw _, [] => some ([], none)
  | fu + 1, .unw nd, parent :: st =>
      if ((nodeAt root parent).childB true).isNil = false ∧ parent ++ [true] ≠ nd then
        mrun root f fu .desc ((parent ++ [true]) :: parent :: st)
      else if parent = [] then mrun root f fu (.unw parent) st
      else visitThen (visitNode f (nodeAt root parent)) (mrun root f fu (.unw parent) st)

/-- `Tree.Walk` as the literal stack machine: empty-tree early return
(tree.go:526), then the machine started with the root's path pushed
(tree.go:539). -/
def Tree.walkMachine {T E : Type} (t : Tree T) (f : T → Option E) (fuel : Nat) :
    Option (List T × Option E) :=
  if t.numNodes = 0 then some ([], none) else mrun t.root f fuel .desc [[]]

theorem nodeAt_append_bit {T : Type} (root : NTree T) (p : List Bool) (b : Bool) :
    nodeAt root (p ++ [b]) = (nodeAt root p).childB b := by
  induction p generalizing root with
  | nil =>
    cases root with
    | nil => cases b <;> simp [nodeAt, NTree.childB]
    | node l r t w => cases b <;> simp [nodeAt, NTree.childB]
  | cons c cs ih =>
    cases root with
    | nil => simp [nodeAt_nil, NTree.childB]
    | node l r t w => cases c <;> simpa [nodeAt] using ih _

/-- Running the walker over a concatenation: the early-exit composition. -/
theorem runWalker_append {T E : Type} (f : T → Option E) (a b : List T) :
    runWalker f (a ++ b) = wcomb (runWalker f a) (runWalker f b) := by
  induction a with
  | nil =>
    rcases hb : runWalker f b with ⟨c2, r2⟩
    simp [runWalker, wcomb, hb]
  | cons v vs ih =>
    cases hv : f v with
    | some e => simp [runWalker, hv, wcomb]
    | none =>
      rcases hvs : runWalker f (vs ++ b) with ⟨c, rr⟩
      rcases ha : runWalker f vs with ⟨c1, r1⟩
      rw [hvs] at ih
      cases r1 with
      | some e =>
        simp only [ha, wcomb] at ih
        simp [runWalker, hv, ha, hvs, wcomb, ih]
      | none =>
        rcases hbb : runWalker f b with ⟨c2, r2⟩
        simp only [ha, hbb, wcomb] at ih
        simp only [Prod.mk.injEq] at ih
        simp only [List.cons_append, runWalker, hv, List.append_eq, hvs, ha, hbb, wcomb]
        simp [ih.1, ih.2]

theorem wcomb_assoc {T E : Type} (u v x : List T × Option E) :
    wcomb (wcomb u v) x = wcomb u (wcomb v x) := by
  rcases u with ⟨c1, r1⟩
  rcases v with ⟨c2, r2⟩
  rcases x with ⟨c3, r3⟩
  cases r1 <;> cases r2 <;> simp [wcomb, List.append_assoc]

theorem wcomb_unit_right {T E : Type} (u : List T × Option E) :
    wcomb u ([], none) = u := by
  rcases u with ⟨c, r⟩
  cases r <;> simp [wcomb]

/-- Visiting one node is running the walker over that node's terminal
value contribution. -/
theorem visitNode_eq_runWalker {T E : Type} (f : T → Option E)
    (l r : NTree T) (t : Bool) (w : Option T) :
    visitNode f (.node l r t w) = runWalker f (if t then w.toList else []) := by
  by_cases ht : t = true
  · subst ht
    simp only [visitNode, NTree.terminalB, NTree.valueOf, if_true]
    cases w with
    | none => simp [runWalker, Option.toList]
    | some v =>
      simp only [Option.toList]
      cases hf : f v <;> simp [runWalker, hf]
  · simp only [Bool.not_eq_true] at ht
    subst ht
    simp [visitNode, NTree.terminalB, runWalker]

theorem visitThen_some {T E : Type} (v res : List T × Option E) :
    visitThen v (some res) = some (wcomb v res) := by
  rcases v with ⟨c1, r1⟩
  rcases res with ⟨c2, r2⟩
  cases r1 <;> simp [visitThen, andThen, wcomb]

/-- The heart of the machine/recursion equivalence: started on a fresh
non-root subtree whose unwind continuation is known, the machine produces
the post-order calls of that subtree followed by the continuation, with
the early-exit rule. Fuel is produced, not assumed: each machine step
costs one unit. -/
theorem mrun_desc {T E : Type} (root : NTree T) (f : T → Option E) (n : NTree T) :
    ∀ (p : List Bool) (st : List (List Bool)) (res : List T × Option E) (fuel₁ : Nat),
      nodeAt root p = n → n ≠ .nil → p ≠ [] →
      mrun root f fuel₁ (.unw p) st = some res →
      ∃ fuel₂, mrun root f fuel₂ .desc (p :: st) =
        some (wcomb (runWalker f (walkVals n)) res) := by
  induction n with
  | nil => exact fun p st res fuel₁ hp hn hpne hc => absurd rfl hn
  | node l r t w ihl ihr =>
    intro p st res fuel₁ hp hn hpne hcont
    have hCF : nodeAt root (p ++ [false]) = l := by
      rw [nodeAt_append_bit, hp]; simp [NTree.childB]
    have hCT : nodeAt root (p ++ [true]) = r := by
      rw [nodeAt_append_bit, hp]; simp [NTree.childB]
    have hvis : visitNode f (nodeAt root p) = runWalker f (if t then w.toList else []) := by
      rw [hp]; exact visitNode_eq_runWalker f l r t w
    by_cases hl : l.isNil = true
    · have hlnil : l = .nil := by
        cases l with
        | nil => rfl
        | node _ _ _ _ => simp [NTree.isNil] at hl
      subst hlnil
      by_cases hr : r.isNil = true
      · -- leaf node: the outer loop pops and visits it, then unwinds
        have hrnil : r = .nil := by
          cases r with
          | nil => rfl
          | node _ _ _ _ => simp [NTree.isNil] at hr
        subst hrnil
        refine ⟨fuel₁ + 1, ?_⟩
        have e1 : ¬((nodeAt root p).childB false).isNil = false := by
          rw [hp]; simp [NTree.childB, NTree.isNil]
        have e2 : ¬((nodeAt root p).childB true).isNil = false := by
          rw [hp]; simp [NTree.childB, NTree.isNil]
        simp only [mrun]
        rw [if_neg e1, if_neg e2, if_neg hpne, hcont, visitThen_some, hvis]
        simp [walkVals]
      · -- only a right child: push it; its unwind pops and visits this node
        have hrne : r ≠ .nil := by
          cases r with
          | nil => simp [NTree.isNil] at hr
          | node _ _ _ _ => simp
        have hA : mrun root f (fuel₁ + 1) (.unw (p ++ [true])) (p :: st) =
            some (wcomb (runWalker f (if t then w.toList else [])) res) := by
          have e1 : ¬(((nodeAt root p).childB true).isNil = false ∧
              p ++ [true] ≠ p ++ [true]) := by simp
          simp only [mrun]
          rw [if_neg e1, if_neg hpne, hcont, visitThen_some, hvis]
        obtain ⟨Fr, hFr⟩ := ihr (p ++ [true]) (p :: st)
          (wcomb (runWalker f (if t then w.toList else [])) res) (fuel₁ + 1) hCT
          hrne (by simp) hA
        refine ⟨Fr + 1, ?_⟩
        have e1 : ¬((nodeAt root p).childB false).isNil = false := by
          rw [hp]; simp [NTree.childB, NTree.isNil]
        have e2 : ((nodeAt root p).childB true).isNil = false := by
          rw [hp]; simpa [NTree.childB] using hr
        simp only [mrun]
        rw [if_neg e1, if_pos e2, hFr]
        rw [show walkVals (NTree.node .nil r t w) =
          walkVals r ++ (if t then w.toList else []) from by simp [walkVals]]
        rw [runWalker_append, wcomb_assoc]
    · -- a left child exists: push it
      have hlne : l ≠ .nil := by
        cases l with
        | nil => simp [NTree.isNil] at hl
        | node _ _ _ _ => simp
      by_cases hr : r.isNil = true
      · -- no right child: the left child's unwind pops and visits this node
        have hrnil : r = .nil := by
          cases r with
          | nil => rfl
          | node _ _ _ _ => simp [NTree.isNil] at hr
        subst hrnil
        have hA : mrun root f (fuel₁ + 1) (.unw (p ++ [false])) (p :: st) =
            some (wcomb (runWalker f (if t then w.toList else [])) res) := by
          have e1 : ¬(((nodeAt root p).childB true).isNil = false ∧
              p ++ [true] ≠ p ++ [false]) := by
            rw [hp]; simp [NTree.childB, NTree.isNil]
          simp only [mrun]
          rw [if_neg e1, if_neg hpne, hcont, visitThen_some, hvis]
        obtain ⟨Fl, hFl⟩ := ihl (p ++ [false]) (p :: st)
          (wcomb (runWalker f (if t then w.toList else [])) res) (fuel₁ + 1) hCF
          hlne (by simp) hA
        refine ⟨Fl + 1, ?_⟩
        have e1 : ((nodeAt root p).childB false).isNil = false := by
          rw [hp]; simpa [NTree.childB] using hl
        simp only [mrun]
        rw [if_pos e1, hFl]
        rw [show walkVals (NTree.node l .nil t w) =
          walkVals l ++ (if t then w.toList else []) from by simp [walkVals]]
        rw [runWalker_append, wcomb_assoc]
      · -- both children: left subtree, then right subtree, then this node
        have hrne : r ≠ .nil := by
          cases r with
          | nil => simp [NTree.isNil] at hr
          | node _ _ _ _ => simp
        have hA : mrun root f (fuel₁ + 1) (.unw (p ++ [true])) (p :: st) =
            some (wcomb (runWalker f (if t then w.toList else [])) res) := by
          have e1 : ¬(((nodeAt root p).childB true).isNil = false ∧
              p ++ [true] ≠ p ++ [true]) := by simp
          simp only [mrun]
          rw [if_neg e1, if_neg hpne, hcont, visitThen_some, hvis]
        obtain ⟨Fr, hFr⟩ := ihr (p ++ [true]) (p :: st)
          (wcomb (runWalker f (if t then w.toList else [])) res) (fuel₁ + 1) hCT
          hrne (by simp) hA
        have hC : mrun root f (Fr + 1) (.unw (p ++ [false])) (p :: st) =
            some (wcomb (runWalker f (walkVals r))
              (wcomb (runWalker f (if t then w.toList else [])) res)) := by
          have e1 : ((nodeAt root p).childB true).isNil = false ∧
              p ++ [true] ≠ p ++ [false] := by
            constructor
            · rw [hp]; simpa [NTree.childB] using hr
            · simp
          simp only [mrun]
          rw [if_pos e1, hFr]
        obtain ⟨Fl, hFl⟩ := ihl (p ++ [false]) (p :: st)
          (wcomb (runWalker f (walkVals r))
            (wcomb (runWalker f (if t then w.toList else [])) res)) (Fr + 1) hCF
          hlne (by simp) hC
        refine ⟨Fl + 1, ?_⟩
        have e1 : ((nodeAt root p).childB false).isNil = false := by
          rw [hp]; simpa [NTree.childB] using hl
        simp only [mrun]
        rw [if_pos e1, hFl]
        rw [show walkVals (NTree.node l r t w) =
          walkVals l ++ (walkVals r ++ (if t then w.toList else [])) from by
            simp [walkVals]]
        rw [runWalker_append, runWalker_append, wcomb_assoc, wcomb_assoc]

/-- The machine started at the root: the root itself is never visited
(tree.go:563-565, 591), so the calls are those over the root's two
subtrees in order. -/
theorem mrun_root {T E : Type} (root : NTree T) (f : T → Option E)
    (l r : NTree T) (t : Bool) (w : Option T) (hroot : root = .node l r t w) :
    ∃ fuel, mrun root f fuel .desc [[]] =
      some (runWalker f (walkVals l ++ walkVals r)) := by
  have hCF : nodeAt root [false] = l := by rw [hroot]; simp [nodeAt]
  have hCT : nodeAt root [true] = r := by rw [hroot]; simp [nodeAt]
  by_cases hl : l.isNil = true
  · have hlnil : l = .nil := by
      cases l with
      | nil => rfl
      | node _ _ _ _ => simp [NTree.isNil] at hl
    subst hlnil
    by_cases hr : r.isNil = true
    · have hrnil : r = .nil := by
        cases r with
        | nil => rfl
        | node _ _ _ _ => simp [NTree.isNil] at hr
      subst hrnil
      refine ⟨2, ?_⟩
      have e1 : ¬((nodeAt root []).childB false).isNil = false := by
        rw [hroot]; simp [nodeAt, NTree.childB, NTree.isNil]
      have e2 : ¬((nodeAt root []).childB true).isNil = false := by
        rw [hroot]; simp [nodeAt, NTree.childB, NTree.isNil]
      simp only [mrun]
      rw [if_neg e1, if_neg e2, if_pos (by trivial)]
      simp [walkVals, runWalker]
    · -- right subtree only
      have hrne : r ≠ .nil := by
        cases r with
        | nil => simp [NTree.isNil] at hr
        | node _ _ _ _ => simp
      have hA : mrun root f 2 (.unw ([] ++ [true])) [[]] = some ([], none) := by
        have e1 : ¬(((nodeAt root []).childB true).isNil = false ∧
            ([] : List Bool) ++ [true] ≠ [] ++ [true]) := by simp
        simp only [mrun]
        rw [if_neg e1, if_pos (by trivial)]
      obtain ⟨Fr, hFr⟩ := mrun_desc root f r ([] ++ [true]) [[]] ([], none) 2 hCT
        hrne (by simp) hA
      refine ⟨Fr + 1, ?_⟩
      have e1 : ¬((nodeAt root []).childB false).isNil = false := by
        rw [hroot]; simp [nodeAt, NTree.childB, NTree.isNil]
      have e2 : ((nodeAt root []).childB true).isNil = false := by
        rw [hroot]; simpa [nodeAt, NTree.childB] using hr
      simp only [mrun]
      rw [if_neg e1, if_pos e2, hFr, wcomb_unit_right]
      simp [walkVals]
  · have hlne : l ≠ .nil := by
      cases l with
      | nil => simp [NTree.isNil] at hl
      | node _ _ _ _ => simp
    by_cases hr : r.isNil = true
    · -- left subtree only
      have hrnil : r = .nil := by
        cases r with
        | nil => rfl
        | node _ _ _ _ => simp [NTree.isNil] at hr
      subst hrnil
      have hA : mrun root f 2 (.unw ([] ++ [false])) [[]] = some ([], none) := by
        have e1 : ¬(((nodeAt root []).childB true).isNil = false ∧
            ([] : List Bool) ++ [true] ≠ [] ++ [false]) := by
          rw [hroot]; simp [nodeAt, NTree.childB, NTree.isNil]
        simp only [mrun]
        rw [if_neg e1, if_pos (by trivial)]
      obtain ⟨Fl, hFl⟩ := mrun_desc root f l ([] ++ [false]) [[]] ([], none) 2 hCF
        hlne (by simp) hA
      refine ⟨Fl + 1, ?_⟩
      have e1 : ((nodeAt root []).childB false).isNil = false := by
        rw [hroot]; simpa [nodeAt, NTree.childB] using hl
      simp only [mrun]
      rw [if_pos e1, hFl, wcomb_unit_right]
      simp [walkVals]
    · -- both subtrees
      have hrne : r ≠ .nil := by
        cases r with
        | nil => simp [NTree.isNil] at hr
        | node _ _ _ _ => simp
      have hA : mrun root f 2 (.unw ([] ++ [true])) [[]] = some ([], none) := by
        have e1 : ¬(((nodeAt root []).childB true).isNil = false ∧
            ([] : List Bool) ++ [true] ≠ [] ++ [true]) := by simp
        simp only [mrun]
        rw [if_neg e1, if_pos (by trivial)]
      obtain ⟨Fr, hFr⟩ := mrun_desc root f r ([] ++ [true]) [[]] ([], none) 2 hCT
        hrne (by simp) hA
      have hC : mrun root f (Fr + 1) (.unw ([] ++ [false])) [[]] =
          some (wcomb (runWalker f (walkVals r)) ([], none)) := by
        have e1 : ((nodeAt root []).childB true).isNil = false ∧
            ([] : List Bool) ++ [true] ≠ [] ++ [false] := by
          constructor
          · rw [hroot]; simpa [nodeAt, NTree.childB] using hr
          · simp
        simp only [mrun]
        rw [if_pos e1, hFr]
      obtain ⟨Fl, hFl⟩ := mrun_desc root f l ([] ++ [false]) [[]]
        (wcomb (runWalker f (walkVals r)) ([], none)) (Fr + 1) hCF hlne (by simp) hC
      refine ⟨Fl + 1, ?_⟩
      have e1 : ((nodeAt root []).childB false).isNil = false := by
        rw [hroot]; simpa [nodeAt, NTree.childB] using hl
      simp only [mrun]
      rw [if_pos e1, hFl, wcomb_unit_right, runWalker_append]

/-- Fidelity of the Walk embedding: on any tree reachable through the API
(root exists and is not terminal), the literal stack machine of
tree.go:536-598, given enough fuel, makes exactly the calls of the
post-order rendering `Tree.walk`/`Tree.walkCalls` and returns the same
outcome. -/
theorem walkMachine_eq_walk {T E : Type} (t : Tree T) (f : T → Option E)
    (h : WF t) : ∃ fuel, t.walkMachine f fuel = some (t.walkCalls f, t.walk f) := by
  obtain ⟨hcount, hflag, hnil, hgood⟩ := h
  by_cases h0 : t.numNodes = 0
  · exact ⟨0, by simp [Tree.walkMachine, Tree.walkCalls, Tree.walk, h0]⟩
  · cases hroot : t.root with
    | nil => exact absurd hroot hnil
    | node l r rt rw =>
      have hrt : rt = false := by simpa [hroot, NTree.terminalB] using hflag
      subst hrt
      obtain ⟨fuel, hm⟩ := mrun_root t.root f l r false rw hroot
      refine ⟨fuel, ?_⟩
      simp only [Tree.walkMachine, Tree.walkCalls, Tree.walk, if_neg h0, hm]
      rw [hroot]
      simp [walkVals]

/-! ## The claims -/

/-- The documented mask precondition (§6 of the spec): the mask's bits are
a left-aligned contiguous run of 1-bits followed only by 0-bits. -/
def maskContiguous (mask : List Nat) : Prop :=
  ∃ k, bitsOf mask =
    List.replicate k true ++ List.replicate (8 * mask.length - k) false

/-- C1: for every valid (K, Mask, V) — key and mask of equal non-zero
length, mask a left-aligned contiguous run of 1-bits whose first bit is
set — after `Insert(ctx, K, Mask, V)` completes (storing V, result `Ok`),
`SearchExact(ctx, K, Mask)` returns `Match` together with value V. (A
completion with `Dup` stores nothing and is the subject of claim C10.) -/
theorem insert_then_searchExact {T : Type} (t t₁ : Tree T)
    (key mask : List Nat) (v : T) (hlen : key.length = mask.length)
    (hne : key ≠ []) (hmask : maskContiguous mask)
    (hbit : mask.headI.testBit 7 = true)
    (h : t.insert key mask v = (t₁, .Ok, none)) :
    t₁.searchExact key mask = (.Match, some v, none) := by
  obtain ⟨-, -, -, hroot, hgo, hnum⟩ := insert_ok_inv t key mask v t₁ h
  obtain ⟨hterm, hval⟩ := insertGo_ok_nodeAt v (pathOf key mask) t.root t₁.root
    (Prod.ext hroot hgo)
  have hs := searchExact_found t₁ key mask (nodeAt t₁.root (pathOf key mask))
    hlen hne hbit (by omega) rfl hterm
  rw [hs, hval]

/-- C2: when several stored prefixes are nested along K's bit path,
`SearchPartial(K, Mask)` returns the value of the terminal node closest to
the root — whenever it returns a value, that value is carried by a
terminal node at some depth `d` of the bit path such that every strictly
shallower node on the path is non-terminal; in particular it is never the
value of a more specific terminal descendant further down the same
path. -/
theorem searchPartial_least_specific {T : Type} (t : Tree T)
    (key mask : List Nat) (res : OpResult) (v : T)
    (h : t.searchPartial key mask = (res, some v, none)) :
    ∃ d m, d ≤ (pathOf key mask).length ∧
      nodeAt t.root ((pathOf key mask).take d) = m ∧ m.terminalB = true ∧
      m.valueOf = some v ∧
      ∀ d' < d, (nodeAt t.root ((pathOf key mask).take d')).terminalB = false := by
  obtain ⟨hlen, n, d, hfind, hterm, hd0, hval⟩ :=
    search_some_inv t key mask .Part res v h
  obtain ⟨-, -, -, -, hloop⟩ := find_some_inv t key mask .Part n d res hfind
  cases hft : firstTerm t.root (pathOf key mask) with
  | none =>
    have hnone := findLoop_part_none (pathOf key mask) t.root hft
    rw [hloop] at hnone
    simp only at hnone
    rw [hterm] at hnone
    simp at hnone
  | some md =>
    obtain ⟨m, dm⟩ := md
    obtain ⟨h1, h2⟩ := findLoop_part_some (pathOf key mask) t.root m dm hft
    rw [hloop] at h1 h2
    have hnm : n = m := h1
    obtain ⟨hle, hnode, hterm2, hmin⟩ :=
      firstTerm_minimal (pathOf key mask) t.root m dm hft
    exact ⟨dm, m, hle, hnode, hterm2, hnm ▸ hval, hmin⟩

/-- C4: after a successful Insert of a valid (K, Mask, V), Delete(K, Mask)
returns `Match` together with the previously stored value V and decreases
the node count by exactly 1, and a subsequent SearchExact(K, Mask)
returns the Error/key-not-found outcome. -/
theorem insert_delete_roundtrip {T : Type} (t t₁ : Tree T)
    (key mask : List Nat) (v : T) (hlen : key.length = mask.length)
    (hne : key ≠ []) (hmask : maskContiguous mask)
    (hbit : mask.headI.testBit 7 = true)
    (h : t.insert key mask v = (t₁, .Ok, none)) :
    (t₁.delete key mask).2.1 = .Match ∧
      (t₁.delete key mask).2.2.1 = some v ∧
      (t₁.delete key mask).1.numNodes + 1 = t₁.numNodes ∧
      ((t₁.delete key mask).1).searchExact key mask =
        (.Error, none, some .keyNotFound) := by
  obtain ⟨-, -, -, hroot, hgo, hnum⟩ := insert_ok_inv t key mask v t₁ h
  obtain ⟨hterm, hval⟩ := insertGo_ok_nodeAt v (pathOf key mask) t.root t₁.root
    (Prod.ext hroot hgo)
  have hdel := delete_found t₁ key mask (nodeAt t₁.root (pathOf key mask))
    hlen hne hbit (by omega) rfl hterm
  rw [hdel]
  refine ⟨rfl, hval, ?_, ?_⟩
  · show decr t₁.numNodes + 1 = t₁.numNodes
    simp only [decr]
    rw [if_pos (by omega)]
    omega
  · apply searchExact_missing _ key mask hlen hne hbit
    show (nodeAt (if (nodeAt t₁.root (pathOf key mask)).isLeaf = false
      then unmarkAt t₁.root (pathOf key mask)
      else delRoot t₁.root (pathOf key mask)) (pathOf key mask)).terminalB = false
    by_cases hleaf : (nodeAt t₁.root (pathOf key mask)).isLeaf = false
    · rw [if_pos hleaf]
      exact nodeAt_unmarkAt _ _
    · rw [if_neg hleaf]
      obtain ⟨b, bs, hp⟩ :=
        List.exists_cons_of_ne_nil (pathOf_ne_nil hne hlen hbit)
      rw [hp, nodeAt_delRoot]
      rfl

/-- C8: inserting the same valid (K, Mask) twice returns `Ok` for the
first call and `Dup` for the second, and the node count increases by
exactly 1 across the two calls, not 2 (the second call changes nothing). -/
theorem insert_twice_dup {T : Type} (t t₁ : Tree T) (key mask : List Nat)
    (v₁ v₂ : T) (h : t.insert key mask v₁ = (t₁, .Ok, none)) :
    t₁.insert key mask v₂ = (t₁, .Dup, none) ∧
      t₁.numNodes = t.numNodes + 1 := by
  obtain ⟨hlen, hne, hbit, hroot, hgo, hnum⟩ := insert_ok_inv t key mask v₁ t₁ h
  obtain ⟨hterm, -⟩ := insertGo_ok_nodeAt v₁ (pathOf key mask) t.root t₁.root
    (Prod.ext hroot hgo)
  have hdup := insertGo_dup v₂ (pathOf key mask) t₁.root hterm
  constructor
  · unfold Tree.insert
    rw [if_neg (by simp [hlen]), if_neg (by simp [List.length_eq_zero, hne]),
      if_neg (by simp [hbit])]
    simp only [hdup]
  · exact hnum

/-- C9: whenever Insert or Delete returns the `Error` result, the tree is
left exactly as it was before the call: every `Error` return of
tree.go:123-261 and tree.go:359-423 happens before any mutation, so no
node is created, unlinked or re-marked, no stored value changes, and the
node count is unchanged. -/
theorem error_leaves_tree_unchanged {T : Type} (t : Tree T)
    (key mask : List Nat) (v : T) :
    ((t.insert key mask v).2.1 = .Error → (t.insert key mask v).1 = t) ∧
      ((t.delete key mask).2.1 = .Error → (t.delete key mask).1 = t) :=
  ⟨insert_error_eq t key mask v, delete_error_eq t key mask⟩

/-- C10: when Insert(K, Mask, V2) returns `Dup` because (K, Mask) is
already stored with value V1 (witnessed by a successful SearchExact), the
tree is left completely unchanged — the returned state is the very same
tree, no node is created, the count is unchanged — and a subsequent
SearchExact(K, Mask) still returns V1, not V2. -/
theorem dup_insert_preserves {T : Type} (t : Tree T) (key mask : List Nat)
    (v₁ v₂ : T) (h : t.searchExact key mask = (.Match, some v₁, none)) :
    t.insert key mask v₂ = (t, .Dup, none) ∧
      ((t.insert key mask v₂).1).searchExact key mask =
        (.Match, some v₁, none) := by
  obtain ⟨hlen, n, d, hfind, hterm, hd0, hval⟩ :=
    search_some_inv t key mask .Exact .Match v₁ h
  obtain ⟨hnum, hne, hbit, -, hloop⟩ :=
    find_some_inv t key mask .Exact n d .Match hfind
  have hnode : nodeAt t.root (pathOf key mask) = n := by
    have hx := (findLoop_exact (pathOf key mask) t.root).1
    rw [hloop] at hx
    exact hx.symm
  have hdup := insertGo_dup v₂ (pathOf key mask) t.root
    (by rw [hnode]; exact hterm)
  have hinsert : t.insert key mask v₂ = (t, .Dup, none) := by
    unfold Tree.insert
    rw [if_neg (by simp [hlen]), if_neg (by simp [List.length_eq_zero, hne]),
      if_neg (by simp [hbit])]
    simp only [hdup]
  exact ⟨hinsert, by rw [hinsert]; exact h⟩

/-- C3 (counterexample): after inserting key [10,0,1,0] with mask
[0xFF,0xFF,0xFF,0x00] into an empty tree, SearchPartial with key
[10,0,1,42] and mask [0xFF,0xFF,0xFF,0xFF] returns OpResult
`PartialMatch`, not `Match` as the claim states: the find loop sees the
/24 terminal node mid-path with mask bits remaining and sets the result
to PartialMatch (tree.go:306-309), which Search passes through
(tree.go:474). -/
theorem partial_slash24_counterexample :
    ((((newTree Nat).insert [10, 0, 1, 0] [255, 255, 255, 0] 7).1).searchPartial
        [10, 0, 1, 42] [255, 255, 255, 255]).1 = .PartialMatch ∧
      OpResult.PartialMatch ≠ OpResult.Match := by decide

/-- C3 (amended): in that scenario SearchPartial returns OpResult
`PartialMatch` together with the value stored for the /24 entry. -/
theorem partial_slash24_amended :
    (((newTree Nat).insert [10, 0, 1, 0] [255, 255, 255, 0] 7).1).searchPartial
        [10, 0, 1, 42] [255, 255, 255, 255] = (.PartialMatch, some 7, none) := by
  decide

/-- C5: over a tree whose counter matches its terminal census and whose
terminal nodes carry values (every tree reachable through the API), Walk
with a never-failing callback invokes the callback exactly once per
stored key — as many calls as stored keys, and the multiset of values
passed to the callback is exactly the multiset of stored values; Walk
over an empty tree makes zero calls; and a callback that first fails on
its k-th invocation stops the walk at exactly k invocations, with that
error returned. -/
theorem walk_callback_spec {T E : Type} (t : Tree T) (f : T → Option E)
    (hcount : t.numNodes = countTerminals t.root)
    (hgood : goodVals t.root = true) :
    (t.numNodes = 0 → t.walk f = none ∧ t.walkCalls f = []) ∧
      ((∀ v ∈ walkVals t.root, f v = none) →
        t.walk f = none ∧ (t.walkCalls f).length = t.numNodes ∧
          (↑(t.walkCalls f) : Multiset T) = storedVals t.root) ∧
      (∀ xs y ys e, walkVals t.root = xs ++ y :: ys →
        (∀ x ∈ xs, f x = none) → f y = some e →
        t.walk f = some e ∧ t.walkCalls f = xs ++ [y]) := by
  refine ⟨?_, ?_, ?_⟩
  · intro h0
    simp [Tree.walk, Tree.walkCalls, h0]
  · intro hnone
    by_cases h0 : t.numNodes = 0
    · have hnil : walkVals t.root = [] := by
        rw [← List.length_eq_zero, walkVals_length t.root hgood]
        omega
      refine ⟨by simp [Tree.walk, h0], ?_, ?_⟩
      · simp only [Tree.walkCalls, if_pos h0]
        simpa using h0.symm
      · rw [← walkVals_coe]
        simp [Tree.walkCalls, h0, hnil]
    · have hr := runWalker_none f (walkVals t.root) hnone
      refine ⟨?_, ?_, ?_⟩
      · simp [Tree.walk, if_neg h0, hr]
      · simp only [Tree.walkCalls, if_neg h0, hr]
        rw [walkVals_length t.root hgood, hcount]
      · simp [Tree.walkCalls, if_neg h0, hr, walkVals_coe t.root]
  · intro xs y ys e hsplit hx hy
    by_cases h0 : t.numNodes = 0
    · exfalso
      have hlen := walkVals_length t.root hgood
      rw [hsplit] at hlen
      simp at hlen
      omega
    · have hr := runWalker_some f xs y ys e hx hy
      refine ⟨?_, ?_⟩
      · simp [Tree.walk, if_neg h0, hsplit, hr]
      · simp [Tree.walkCalls, if_neg h0, hsplit, hr]

/-- C6: after every sequence of Insert, Search, Delete and Walk
operations starting from a new tree, the live node counter `numNodes`
(exposed as GetNodesCount and used as the emptiness predicate) equals the
number of nodes currently marked terminal in the tree. -/
theorem numNodes_eq_terminal_census (T : Type) (ops : List (Op T)) :
    (applyOps (newTree T) ops).numNodes =
      countTerminals (applyOps (newTree T) ops).root :=
  (WF_applyOps ops (newTree T) (WF_newTree T)).1

/-- C7 (counterexample): on an empty tree, a mask whose first bit is 0
makes SearchExact return OpResult `Error` — but with the key-not-found
error, not the invalid key/mask error the claim states: `find` checks
`t.IsEmpty()` (tree.go:278) before validating the mask (tree.go:293). -/
theorem invalid_input_empty_tree_counterexample :
    (newTree Nat).searchExact [18] [0] = (.Error, none, some .keyNotFound) ∧
      Err.keyNotFound ≠ Err.invalidKeyMask ∧
      Err.keyNotFound ≠ Err.invalidKeyLength := by decide

/-- C7 (amended): for every input with mismatched key/mask lengths, or
both empty, or a mask whose first bit is 0, Insert, Search (Exact or
Partial) and Delete all return OpResult `Error` regardless of the tree's
contents. Insert always reports an invalid-input error (invalid key/mask
or invalid key length); Search and Delete also report an invalid-input
error except on an empty tree, where the emptiness check precedes
validation inside `find` and the reported error is key-not-found. -/
theorem invalid_inputs_error {T : Type} (t : Tree T) (key mask : List Nat)
    (v : T) (mt : MatchType)
    (h : key.length ≠ mask.length ∨ (key = [] ∧ mask = []) ∨
      mask.headI.testBit 7 = false) :
    ((t.insert key mask v).2.1 = .Error ∧
      ((t.insert key mask v).2.2 = some .invalidKeyMask ∨
        (t.insert key mask v).2.2 = some .invalidKeyLength)) ∧
    ((t.search key mask mt).1 = .Error ∧
      ((t.search key mask mt).2.2 = some .invalidKeyMask ∨
        (t.search key mask mt).2.2 = some .invalidKeyLength ∨
        (t.numNodes = 0 ∧ (t.search key mask mt).2.2 = some .keyNotFound))) ∧
    ((t.delete key mask).2.1 = .Error ∧
      ((t.delete key mask).2.2.2 = some .invalidKeyMask ∨
        (t.delete key mask).2.2.2 = some .invalidKeyLength ∨
        (t.numNodes = 0 ∧ (t.delete key mask).2.2.2 = some .keyNotFound))) := by
  by_cases h1 : key.length ≠ mask.length
  · refine ⟨⟨?_, Or.inl ?_⟩, ⟨?_, Or.inl ?_⟩, ⟨?_, Or.inl ?_⟩⟩ <;>
      simp [Tree.insert, Tree.search, Tree.delete, h1]
  · have hbitne : ¬key.length = 0 → mask.headI.testBit 7 = false := by
      intro hk0
      rcases h with h | ⟨hk, hm⟩ | hb
      · exact absurd h h1
      · exact absurd (by simp [hk]) hk0
      · exact hb
    refine ⟨?_, ?_, ?_⟩
    · -- Insert
      unfold Tree.insert
      rw [if_neg h1]
      by_cases hk0 : key.length = 0
      · rw [if_pos hk0]
        exact ⟨rfl, Or.inr rfl⟩
      · rw [if_neg hk0, if_pos (hbitne hk0)]
        exact ⟨rfl, Or.inl rfl⟩
    · -- Search
      unfold Tree.search
      rw [if_neg h1]
      by_cases h0 : t.numNodes = 0
      · have hf : t.find key mask mt = (.nil, 0, .NoMatch, some .keyNotFound) := by
          unfold Tree.find
          rw [if_pos h0]
        simp [hf, h0]
      · by_cases hk0 : key.length = 0
        · have hf : t.find key mask mt = (.nil, 0, .Error, some .invalidKeyLength) := by
            unfold Tree.find
            rw [if_neg h0, if_pos hk0]
          simp [hf]
        · have hf : t.find key mask mt = (.nil, 0, .Error, some .invalidKeyMask) := by
            unfold Tree.find
            rw [if_neg h0, if_neg hk0, if_pos (by simpa using hbitne hk0)]
          simp [hf]
    · -- Delete
      unfold Tree.delete
      rw [if_neg h1]
      by_cases h0 : t.numNodes = 0
      · have hf : t.find key mask .Exact = (.nil, 0, .NoMatch, some .keyNotFound) := by
          unfold Tree.find
          rw [if_pos h0]
        simp [hf, h0]
      · by_cases hk0 : key.length = 0
        · have hf : t.find key mask .Exact = (.nil, 0, .Error, some .invalidKeyLength) := by
            unfold Tree.find
            rw [if_neg h0, if_pos hk0]
          simp [hf]
        · have hf : t.find key mask .Exact = (.nil, 0, .Error, some .invalidKeyMask) := by
            unfold Tree.find
            rw [if_neg h0, if_neg hk0, if_pos (by simpa using hbitne hk0)]
          simp [hf]

/-! ## Witnesses: the claim theorems applied at concrete inputs -/

/-- Witness for C1 at key [0x80], mask [0xFF], value 5 on an empty tree. -/
theorem insert_then_searchExact_witness :
    (newTree Nat).insert [128] [255] 5 =
        (((newTree Nat).insert [128] [255] 5).1, .Ok, none) ∧
      (((newTree Nat).insert [128] [255] 5).1).searchExact [128] [255] =
        (.Match, some 5, none) :=
  ⟨by decide, insert_then_searchExact (newTree Nat)
    ((newTree Nat).insert [128] [255] 5).1 [128] [255] 5 (by decide) (by decide)
    ⟨8, by decide⟩ (by decide) (by decide)⟩

/-- Witness for C2 on the tree storing the nested prefixes 1/1 (value 1)
and 11/2 (value 2): the partial search of key 0xFF returns value 1, the
least specific covering prefix. -/
theorem searchPartial_least_specific_witness :
    (((((newTree Nat).insert [255] [128] 1).1).insert [255] [192] 2).1).searchPartial
        [255] [255] = (.PartialMatch, some 1, none) ∧
      (∃ d m, d ≤ (pathOf [255] [255]).length ∧
        nodeAt (((((newTree Nat).insert [255] [128] 1).1).insert [255] [192] 2).1).root
          ((pathOf [255] [255]).take d) = m ∧ m.terminalB = true ∧
        m.valueOf = some 1 ∧
        ∀ d' < d,
          (nodeAt (((((newTree Nat).insert [255] [128] 1).1).insert [255] [192] 2).1).root
            ((pathOf [255] [255]).take d')).terminalB = false) :=
  ⟨by decide, searchPartial_least_specific
    (((((newTree Nat).insert [255] [128] 1).1).insert [255] [192] 2).1)
    [255] [255] .PartialMatch 1 (by decide)⟩

/-- Witness for C4 at key [0x80], mask [0xFF], value 5 on an empty tree. -/
theorem insert_delete_roundtrip_witness :
    (newTree Nat).insert [128] [255] 5 =
        (((newTree Nat).insert [128] [255] 5).1, .Ok, none) ∧
      ((((newTree Nat).insert [128] [255] 5).1).delete [128] [255]).2.1 = .Match ∧
      ((((newTree Nat).insert [128] [255] 5).1).delete [128] [255]).2.2.1 = some 5 ∧
      ((((newTree Nat).insert [128] [255] 5).1).delete [128] [255]).1.numNodes + 1 =
        (((newTree Nat).insert [128] [255] 5).1).numNodes ∧
      (((((newTree Nat).insert [128] [255] 5).1).delete [128] [255]).1).searchExact
        [128] [255] = (.Error, none, some .keyNotFound) :=
  ⟨by decide, insert_delete_roundtrip (newTree Nat)
    ((newTree Nat).insert [128] [255] 5).1 [128] [255] 5 (by decide) (by decide)
    ⟨8, by decide⟩ (by decide) (by decide)⟩

/-- Witness for C5 on the tree storing keys 0x80 (value 1) and 0x40
(value 2), with the never-failing callback. -/
theorem walk_callback_spec_witness :
    (((((newTree Nat).insert [128] [255] 1).1).insert [64] [255] 2).1).numNodes =
        countTerminals (((((newTree Nat).insert [128] [255] 1).1).insert [64] [255] 2).1).root ∧
      ((((((newTree Nat).insert [128] [255] 1).1).insert [64] [255] 2).1).walk
          (fun _ => (none : Option Nat)) = none ∧
        (((((((newTree Nat).insert [128] [255] 1).1).insert [64] [255] 2).1).walkCalls
          (fun _ => (none : Option Nat)))).length =
          (((((newTree Nat).insert [128] [255] 1).1).insert [64] [255] 2).1).numNodes ∧
        (↑((((((newTree Nat).insert [128] [255] 1).1).insert [64] [255] 2).1).walkCalls
            (fun _ => (none : Option Nat))) : Multiset Nat) =
          storedVals (((((newTree Nat).insert [128] [255] 1).1).insert [64] [255] 2).1).root) :=
  ⟨by decide,
    (walk_callback_spec (((((newTree Nat).insert [128] [255] 1).1).insert [64] [255] 2).1)
      (fun _ => (none : Option Nat)) (by decide) (by decide)).2.1
      (fun v _ => rfl)⟩

/-- Witness for C7 at a zero leading-mask-bit input. -/
theorem invalid_inputs_error_witness :
    (([18] : List Nat).length ≠ ([0] : List Nat).length ∨
        (([18] : List Nat) = [] ∧ ([0] : List Nat) = []) ∨
        ([0] : List Nat).headI.testBit 7 = false) ∧
      ((newTree Nat).insert [18] [0] 5).2.1 = .Error ∧
      ((newTree Nat).search [18] [0] .Exact).1 = .Error ∧
      ((newTree Nat).delete [18] [0]).2.1 = .Error :=
  ⟨by decide,
    (invalid_inputs_error (newTree Nat) [18] [0] 5 .Exact (by decide)).1.1,
    (invalid_inputs_error (newTree Nat) [18] [0] 5 .Exact (by decide)).2.1.1,
    (invalid_inputs_error (newTree Nat) [18] [0] 5 .Exact (by decide)).2.2.1⟩

/-- Witness for C8 at key [0x80], mask [0xFF] on an empty tree. -/
theorem insert_twice_dup_witness :
    (newTree Nat).insert [128] [255] 1 =
        (((newTree Nat).insert [128] [255] 1).1, .Ok, none) ∧
      (((newTree Nat).insert [128] [255] 1).1).insert [128] [255] 2 =
        (((newTree Nat).insert [128] [255] 1).1, .Dup, none) ∧
      (((newTree Nat).insert [128] [255] 1).1).numNodes =
        (newTree Nat).numNodes + 1 :=
  ⟨by decide,
    (insert_twice_dup (newTree Nat) ((newTree Nat).insert [128] [255] 1).1
      [128] [255] 1 2 (by decide)).1,
    (insert_twice_dup (newTree Nat) ((newTree Nat).insert [128] [255] 1).1
      [128] [255] 1 2 (by decide)).2⟩

/-- Witness for C9 at an empty key/mask pair, where both Insert and
Delete report an error and return the tree unchanged. -/
theorem error_leaves_tree_unchanged_witness :
    ((newTree Nat).insert [] [] 0).2.1 = .Error ∧
      ((newTree Nat).insert [] [] 0).1 = newTree Nat ∧
      ((newTree Nat).delete [] []).2.1 = .Error ∧
      ((newTree Nat).delete [] []).1 = newTree Nat :=
  ⟨by decide,
    (error_leaves_tree_unchanged (newTree Nat) [] [] 0).1 (by decide),
    by decide,
    (error_leaves_tree_unchanged (newTree Nat) [] [] 0).2 (by decide)⟩

/-- Witness for C10: key 0x80 stored with value 1; re-inserting value 2
returns Dup, changes nothing, and SearchExact still returns 1. -/
theorem dup_insert_preserves_witness :
    (((newTree Nat).insert [128] [255] 1).1).searchExact [128] [255] =
        (.Match, some 1, none) ∧
      (((newTree Nat).insert [128] [255] 1).1).insert [128] [255] 2 =
        (((newTree Nat).insert [128] [255] 1).1, .Dup, none) ∧
      (((((newTree Nat).insert [128] [255] 1).1).insert [128] [255] 2).1).searchExact
        [128] [255] = (.Match, some 1, none) :=
  ⟨by decide,
    (dup_insert_preserves ((newTree Nat).insert [128] [255] 1).1
      [128] [255] 1 2 (by decide)).1,
    (dup_insert_preserves ((newTree Nat).insert [128] [255] 1).1
      [128] [255] 1 2 (by decide)).2⟩

end PTree


